import Mathlib

/-!
Verification development for the `xmlpyp` streaming preprocessor
(`xmlpyp.py`).  The scanner, the snippet-execution routine with its
line-number remapping, and the top-level driver are embedded as
executable Lean functions over `List Char`; the semantics of the
embedded Python snippets (an external collaborator of the repository)
is modelled by a miniature evaluator that reproduces CPython's
behaviour on the snippet forms exercised here: `print('lit')` writes
the literal followed by a newline, `print(1/0)` raises a
division-by-zero run-time error, `name = nat` binds a name, `print(name)`
writes the bound value and a newline, and an unparsable line is a
syntax error reported at that line.
-/

namespace Xmlpyp

/-- Whitespace test mirroring the Python regex class `\s` (ASCII part). -/
def isSpc (c : Char) : Bool :=
  c == ' ' || c == '\t' || c == '\n' || c == '\r' || c == '\x0b' || c == '\x0c'

/-- Test whether `pat` is an initial segment of `cs`. -/
def startsWith : List Char → List Char → Bool
  | [], _ => true
  | _ :: _, [] => false
  | a :: as, b :: bs => a == b && startsWith as bs

/-- Line splitting as Python file iteration does it: each line keeps its
trailing newline; a last line without a newline is still produced. -/
def splitLinesAux (acc : List Char) : List Char → List (List Char)
  | [] => if acc.isEmpty then [] else [acc.reverse]
  | c :: rest =>
    if c = '\n' then (acc.reverse ++ ['\n']) :: splitLinesAux [] rest
    else splitLinesAux (c :: acc) rest

/-- Split a document into the lines the scanner iterates over. -/
def splitLines (cs : List Char) : List (List Char) := splitLinesAux [] cs

/-- Split source text at newline characters (the lines of a snippet as the
parser counts them); `n` newlines give `n + 1` pieces. -/
def splitNl : List Char → List (List Char)
  | [] => [[]]
  | c :: rest =>
    if c = '\n' then [] :: splitNl rest
    else
      match splitNl rest with
      | [] => [[c]]
      | l :: ls => (c :: l) :: ls

/-- Statements of the modelled snippet language. -/
inductive Stmt where
  | passS : Stmt
  | assign (name : List Char) (value : Nat) : Stmt
  | printLit (s : List Char) : Stmt
  | printVar (name : List Char) : Stmt
  | printDivZero : Stmt
deriving DecidableEq

/-- Run-time failures of the modelled snippet language. -/
inductive RunErr where
  | nameError (name : List Char) : RunErr
  | zeroDiv : RunErr
deriving DecidableEq

/-- The `PythonError` wrapper: a snippet failure, with its phase. -/
inductive PyError where
  | syntaxErr (lineno : Nat) : PyError
  | runtimeErr (e : RunErr) : PyError
deriving DecidableEq

/-- Top-level diagnostics: a script error or the malformed-tag error
(`XmlError`, which carries the starting line of the unterminated tag). -/
inductive ProcError where
  | pyErr (e : PyError) : ProcError
  | xmlErr (beginLine : Nat) : ProcError
deriving DecidableEq

/-- The persistent namespace `exec_globals`: later bindings shadow earlier
ones, as a mapping from name to value. -/
def PyState : Type := List (List Char × Nat)

instance : DecidableEq PyState := by
  unfold PyState; infer_instance

/-- Name lookup in the namespace (most recent binding wins). -/
def lookupV (n : List Char) : PyState → Option Nat
  | [] => none
  | (m, v) :: rest => if n = m then some v else lookupV n rest

/-- Drop trailing whitespace. -/
def trimR (l : List Char) : List Char := (l.reverse.dropWhile isSpc).reverse

/-- Identifier test: a letter or underscore followed by alphanumerics or
underscores. -/
def isIdent : List Char → Bool
  | [] => false
  | c :: rest => (c.isAlpha || c == '_') && rest.all (fun d => d.isAlphanum || d == '_')

/-- Digit-string to number. -/
def digitsToNat (l : List Char) : Nat := l.foldl (fun a c => a * 10 + (c.toNat - 48)) 0

/-- Decimal rendering of a value, as `print` shows a number. -/
def natChars (n : Nat) : List Char := (Nat.repr n).data

/-- Parse the argument of a `print(...)` call. -/
def parseInner (inner : List Char) : Option Stmt :=
  if inner = ['1', '/', '0'] then some .printDivZero
  else
    match inner with
    | '\'' :: rest =>
      if rest.getLast? = some '\'' then
        let lit := rest.dropLast
        if lit.all (fun c => c ≠ '\'' && c ≠ '\\') then some (.printLit lit) else none
      else none
    | _ => if isIdent inner then some (.printVar inner) else none

/-- Split a line at its first `=` character. -/
def splitAtEq : List Char → Option (List Char × List Char)
  | [] => none
  | c :: rest =>
    if c = '=' then some ([], rest)
    else (splitAtEq rest).map (fun p => (c :: p.1, p.2))

/-- Parse an assignment statement `name = number`. -/
def parseAssign (u : List Char) : Option Stmt :=
  match splitAtEq u with
  | none => none
  | some (lhs, rhs) =>
    if rhs.headD ' ' == '=' then none
    else
      let n := trimR lhs
      let v := trimR (rhs.dropWhile isSpc)
      if isIdent n && !v.isEmpty && v.all Char.isDigit then
        some (.assign n (digitsToNat v))
      else none

/-- Parse one physical line of a snippet.  A blank line is a no-op; a
nonblank line starting with whitespace is an indentation error (`none`). -/
def parseLine (l : List Char) : Option Stmt :=
  if l.all isSpc then some .passS
  else if isSpc (l.headD 'a') then none
  else
    let u := trimR l
    if u = ['p', 'a', 's', 's'] then some .passS
    else if startsWith ['p', 'r', 'i', 'n', 't', '('] u && u.getLast? = some ')' then
      parseInner (u.drop 6).dropLast
    else parseAssign u

/-- Parse the numbered lines of a snippet; the first unparsable line is a
syntax error carrying its 1-based line number (`ast.parse` behaviour). -/
def parseNumbered (n : Nat) : List (List Char) → Except Nat (List (Nat × Stmt))
  | [] => .ok []
  | l :: ls =>
    match parseLine l with
    | none => .error n
    | some s => (parseNumbered (n + 1) ls).map (fun r => (n, s) :: r)

/-- Parse a whole snippet source (`ast.parse`): statements with their
line numbers, or the line number of the first syntax error. -/
def miniParse (src : List Char) : Except Nat (List (Nat × Stmt)) :=
  parseNumbered 1 (splitNl src)

/-- The `_AstLineNoModifier` pass: add a constant offset to every
statement's line-number metadata. -/
def shiftLines (off : Nat) (ss : List (Nat × Stmt)) : List (Nat × Stmt) :=
  ss.map (fun p => (p.1 + off, p.2))

/-- Result of running statements: an optional run-time error (mutations
made before the failure persist), the namespace, and the text printed to
the current stdout. -/
structure RunR where
  err : Option RunErr
  g : PyState
  out : List Char
deriving DecidableEq

/-- Execute one statement against the namespace, appending print output
to the current stdout contents. -/
def runStmt (s : Stmt) (g : PyState) (out : List Char) : RunR :=
  match s with
  | .passS => ⟨none, g, out⟩
  | .assign n v => ⟨none, (n, v) :: g, out⟩
  | .printLit l => ⟨none, g, out ++ l ++ ['\n']⟩
  | .printVar n =>
    match lookupV n g with
    | some v => ⟨none, g, out ++ natChars v ++ ['\n']⟩
    | none => ⟨some (.nameError n), g, out⟩
  | .printDivZero => ⟨some .zeroDiv, g, out⟩

/-- Execute a statement list in order, stopping at the first failure. -/
def runStmts : List (Nat × Stmt) → PyState → List Char → RunR
  | [], g, out => ⟨none, g, out⟩
  | (_, s) :: rest, g, out =>
    let r := runStmt s g out
    match r.err with
    | some _ => r
    | none => runStmts rest r.g r.out

/-- Result of `Processor.exec_py`: an optional `PythonError`, the updated
namespace, and the contents of the current stdout afterwards. -/
structure ExecR where
  err : Option PyError
  g : PyState
  stdout : List Char
deriving DecidableEq

/-- The statements actually compiled: when the snippet starts below the
first line, every statement's line metadata is shifted by the offset
(`if line_num_offset: Processor._AstLineNoModifier(...)`). -/
def shifted (lineNum : Nat) (ss : List (Nat × Stmt)) : List (Nat × Stmt) :=
  if lineNum - 1 = 0 then ss else shiftLines (lineNum - 1) ss

/-- Embedding of `Processor.exec_py`: parse the snippet; on a syntax
error shift the reported line by `line_num - 1`; otherwise shift every
statement's line metadata by the same offset and execute against the
namespace, printing to the current stdout. -/
def exec_py (src : List Char) (lineNum : Nat) (g : PyState) (stdout : List Char) : ExecR :=
  let off := lineNum - 1
  match miniParse src with
  | .error n => ⟨some (.syntaxErr (if off = 0 then n else n + off)), g, stdout⟩
  | .ok ss =>
    let r := runStmts (shifted lineNum ss) g stdout
    match r.err with
    | some e => ⟨some (.runtimeErr e), r.g, r.out⟩
    | none => ⟨none, r.g, r.out⟩

/-- Embedding of `exec_and_dump`'s capture: the print buffer is cleared
(stdout starts empty) and the snippet runs; `stdout` of the result is the
captured substitution text. -/
def exec_and_dump (src : List Char) (lineNum : Nat) (g : PyState) : ExecR :=
  exec_py src lineNum g []

/-! Model of the two compiled patterns.  `pattern_pi_beg` is
`<\?\s*<target>\s` and `pattern_pi_tag` is `pattern_pi_beg ++ (.+?)\?>`,
with the target inserted literally (the model assumes a target whose
first character is not whitespace, as the default `py` is, so the greedy
`\s*` must consume exactly the maximal whitespace run). -/

/-- Match `\s*<target>\s` at the front of `cs`, returning the number of
characters consumed. -/
def matchPiBegTail (t : List Char) : List Char → Option Nat
  | [] => none
  | c :: rest =>
    if isSpc c then (matchPiBegTail t rest).map (· + 1)
    else if startsWith t (c :: rest) then
      match (c :: rest).drop t.length with
      | d :: _ => if isSpc d then some (t.length + 1) else none
      | [] => none
    else none

/-- Match the whole opening pattern `<\?\s*<target>\s` at the front of
`cs`, returning the number of characters consumed (the last one being
the mandatory whitespace). -/
def matchPiBegAt (t : List Char) (cs : List Char) : Option Nat :=
  match cs with
  | a :: b :: rest =>
    if a = '<' ∧ b = '?' then (matchPiBegTail t rest).map (· + 2) else none
  | _ => none

/-- Whether a text begins with the closing marker. -/
def startsClose : List Char → Bool
  | a :: b :: _ => a == '?' && b == '>'
  | _ => false

/-- Whether a text begins with the opening marker. -/
def startsOpen : List Char → Bool
  | a :: b :: _ => a == '<' && b == '?'
  | _ => false

/-- Split at the first occurrence of the closing marker, refusing to
cross a newline (the semantics of `(.+?)\?>` with `.` not matching a
newline, before the non-empty constraint). -/
def splitAtClose : List Char → Option (List Char × List Char)
  | [] => none
  | c :: rest =>
    if startsClose (c :: rest) then some ([], rest.tail)
    else if c = '\n' then none
    else (splitAtClose rest).map (fun p => (c :: p.1, p.2))

/-- The lazy group `(.+?)` followed by `\?>`: the shortest nonempty
newline-free prefix that is followed by the closing marker. -/
def findLazyBody (cs : List Char) : Option (List Char × List Char) :=
  match cs with
  | [] => none
  | c :: rest =>
    if c = '\n' then none
    else (splitAtClose rest).map (fun p => (c :: p.1, p.2))

/-- Match the full single-line tag pattern at the front of `cs`,
returning the captured body and the text after the closing marker. -/
def matchPiTagAt (t : List Char) (cs : List Char) : Option (List Char × List Char) :=
  match matchPiBegAt t cs with
  | none => none
  | some n => findLazyBody (cs.drop n)

/-- `pattern_pi_beg.search`: the leftmost match of the opening pattern.
Returns the text before the match and the suffix of the line starting at
the match's last character (`m.end(0) - 1`, the mandatory whitespace),
which is what the scanner copies into the code buffer. -/
def searchPiBeg (t : List Char) : List Char → Option (List Char × List Char)
  | [] => none
  | c :: rest =>
    match matchPiBegAt t (c :: rest) with
    | some n => some ([], (c :: rest).drop (n - 1))
    | none => (searchPiBeg t rest).map (fun p => (c :: p.1, p.2))

/-- `line.find('<?') != -1`. -/
def containsOpen : List Char → Bool
  | [] => false
  | c :: rest => startsOpen (c :: rest) || containsOpen rest

/-- `line.find('?>') != -1`. -/
def containsClose : List Char → Bool
  | [] => false
  | c :: rest => startsClose (c :: rest) || containsClose rest

/-- `line.find('?>')` as a split: the text before the first closing
marker and the text after it. -/
def findClose : List Char → Option (List Char × List Char)
  | [] => none
  | c :: rest =>
    if startsClose (c :: rest) then some ([], rest.tail)
    else (findClose rest).map (fun p => (c :: p.1, p.2))

/-- One recorded snippet evaluation: the source handed to `exec_py`, the
starting line number passed with it, and the namespace it ran against. -/
structure Call where
  src : List Char
  line : Nat
  gIn : PyState
deriving DecidableEq

/-- Result of substituting the single-line tags of one line. -/
structure SubRes where
  err : Option PyError
  line : List Char
  g : PyState
  calls : List Call
deriving DecidableEq

/-- `pattern_pi_tag.sub(lambda m: exec_and_dump(m[1], None), line)`:
replace every single-line tag, left to right, by the output its body
prints; the replacement text is not rescanned.  A snippet failure aborts
the substitution (namespace mutations made so far persist).  `fuel` is
an upper bound on the scan length; callers pass the line length. -/
def subPiTags (t : List Char) (ln : Nat) : Nat → List Char → PyState → SubRes
  | _, [], g => ⟨none, [], g, []⟩
  | 0, cs, g => ⟨none, cs, g, []⟩
  | fuel + 1, c :: rest, g =>
    match matchPiTagAt t (c :: rest) with
    | some (body, after) =>
      let r := exec_and_dump body ln g
      match r.err with
      | some e => ⟨some e, c :: rest, r.g, [⟨body, ln, g⟩]⟩
      | none =>
        let s := subPiTags t ln fuel after r.g
        ⟨s.err, r.stdout ++ s.line, s.g, ⟨body, ln, g⟩ :: s.calls⟩
    | none =>
      let s := subPiTags t ln fuel rest g
      ⟨s.err, c :: s.line, s.g, s.calls⟩

/-- The scanner's per-document mutable state: the namespace, whether a
multi-line tag is open, the line it began on, and the code buffer. -/
structure ScanSt where
  g : PyState
  inTag : Bool
  begLn : Nat
  buf : List Char
deriving DecidableEq

/-- The scanner state right after a multi-line tag's body has been
executed: namespace updated, tag closed, recorded line reset to 0. -/
def afterExecSt (st : ScanSt) (g : PyState) : ScanSt :=
  { st with g := g, inTag := false, begLn := 0 }

/-- Result of processing one line (or a run of lines): an optional
script error, the updated state, the text written to the output stream,
and the snippet evaluations performed. -/
structure StepOut where
  err : Option PyError
  st : ScanSt
  out : List Char
  calls : List Call
deriving DecidableEq

/-- The tag-scanning part of one line (source lines 204-216): if the
line contains `<?`, record the line number, substitute all single-line
tags, then search the substituted line for an opening pattern; on a hit
switch to the in-tag state, seed the code buffer from the mandatory
whitespace onwards, and emit only the text before the match. -/
def procRest (t : List Char) (st : ScanSt) (ln : Nat) (line : List Char) : StepOut :=
  if containsOpen line then
    let sb := subPiTags t ln line.length line st.g
    match sb.err with
    | some e => ⟨some e, { st with g := sb.g, begLn := ln }, [], sb.calls⟩
    | none =>
      match searchPiBeg t sb.line with
      | some (pre, wsrest) =>
        ⟨none, { g := sb.g, inTag := true, begLn := ln, buf := wsrest }, pre, sb.calls⟩
      | none => ⟨none, { st with g := sb.g, begLn := ln }, sb.line, sb.calls⟩
  else ⟨none, st, line, []⟩

/-- Process one input line (the body of the scanner's loop): while
inside a multi-line tag, a line without the closing marker is appended
whole to the code buffer; a line with it completes the body, which runs
with the recorded starting line, its captured output being written out,
and the remainder of the line is scanned normally. -/
def procLine (t : List Char) (st : ScanSt) (ln : Nat) (line : List Char) : StepOut :=
  if st.inTag then
    match findClose line with
    | none => ⟨none, { st with buf := st.buf ++ line }, [], []⟩
    | some (pre, after) =>
      let src := st.buf ++ pre
      let r := exec_and_dump src st.begLn st.g
      match r.err with
      | some e => ⟨some e, { st with g := r.g }, [], [⟨src, st.begLn, st.g⟩]⟩
      | none =>
        let r2 := procRest t { st with g := r.g, inTag := false, begLn := 0 } ln after
        ⟨r2.err, r2.st, r.stdout ++ r2.out, ⟨src, st.begLn, st.g⟩ :: r2.calls⟩
  else procRest t st ln line

/-- Process a run of lines, numbering them consecutively from `ln`; a
script error stops the scan (text already written stays written). -/
def procLines (t : List Char) (st : ScanSt) (ln : Nat) : List (List Char) → StepOut
  | [] => ⟨none, st, [], []⟩
  | l :: ls =>
    let r := procLine t st ln l
    match r.err with
    | some _ => r
    | none =>
      let r2 := procLines t r.st (ln + 1) ls
      ⟨r2.err, r2.st, r.out ++ r2.out, r.calls ++ r2.calls⟩

/-- Result of processing one document: an optional diagnostic, the final
namespace, the text written to the output stream during the call, and
the recorded snippet evaluations. -/
structure DocRes where
  err : Option ProcError
  g : PyState
  out : List Char
  calls : List Call
deriving DecidableEq

/-- The default target name. -/
def pyT : List Char := ['p', 'y']

namespace Processor

/-- Embedding of `Processor.input`: scan the document's lines starting
outside any tag at line 1; if the stream ends while a multi-line tag is
still open, the malformed-tag diagnostic naming its starting line is
raised. -/
def input (t : List Char) (g : PyState) (doc : List Char) : DocRes :=
  let r := procLines t ⟨g, false, 0, []⟩ 1 (splitLines doc)
  match r.err with
  | some e => ⟨some (.pyErr e), r.st.g, r.out, r.calls⟩
  | none =>
    if r.st.inTag then ⟨some (.xmlErr r.st.begLn), r.st.g, r.out, r.calls⟩
    else ⟨none, r.st.g, r.out, r.calls⟩

end Processor

/-- Result of a whole run over several documents through one processor:
the output stream accumulates across documents and the namespace is
shared. -/
structure RunRes where
  err : Option ProcError
  g : PyState
  out : List Char
  calls : List Call
deriving DecidableEq

/-- Drive several documents, in order, through one processor instance;
a diagnostic stops the run. -/
def inputDocs (t : List Char) (g : PyState) : List (List Char) → RunRes
  | [] => ⟨none, g, [], []⟩
  | d :: ds =>
    let r := Processor.input t g d
    match r.err with
    | some e => ⟨some e, r.g, r.out, r.calls⟩
    | none =>
      let r2 := inputDocs t r.g ds
      ⟨r2.err, r2.g, r.out ++ r2.out, r.calls ++ r2.calls⟩

/-- Result of the pre-execution snippet loop of `main`. -/
structure PreRes where
  err : Option PyError
  g : PyState
  stdoutAcc : List Char
  calls : List Call
deriving DecidableEq

/-- Embedding of `main`'s pre-execution loop
(`for c in cmds: p.exec_py(c, '<command-line>')`): each command runs
with the default starting line 1 while `sys.stdout` is still the real
standard output, so printed text accumulates there. -/
def runPreExec (cmds : List (List Char)) (g : PyState) (stdout : List Char) : PreRes :=
  match cmds with
  | [] => ⟨none, g, stdout, []⟩
  | c :: cs =>
    let r := exec_py c 1 g stdout
    match r.err with
    | some e => ⟨some e, r.g, r.stdout, [⟨c, 1, g⟩]⟩
    | none =>
      let r2 := runPreExec cs r.g r.stdout
      ⟨r2.err, r2.g, r2.stdoutAcc, ⟨c, 1, g⟩ :: r2.calls⟩

/-- Result of one invocation of `main`: the diagnostic if one was
raised, the final namespace, the processor's output sink, the real
standard output, and every snippet evaluation of the run. -/
structure MainRes where
  err : Option ProcError
  g : PyState
  outSink : List Char
  realOut : List Char
  calls : List Call
deriving DecidableEq

/-- Embedding of `main`'s processing (one processor instance): run the
pre-execution snippets against the fresh empty namespace, then feed the
input documents through the scanner sharing that namespace. -/
def runMain (t : List Char) (cmds docs : List (List Char)) : MainRes :=
  let p := runPreExec cmds [] []
  match p.err with
  | some e => ⟨some (.pyErr e), p.g, [], p.stdoutAcc, p.calls⟩
  | none =>
    let r := inputDocs t p.g docs
    ⟨r.err, r.g, r.out, p.stdoutAcc, p.calls ++ r.calls⟩

/-- The namespace a snippet evaluation leaves behind (mutations before a
run-time failure persist; a parse failure leaves it unchanged). -/
def callGOut (c : Call) : PyState := (exec_and_dump c.src c.line c.gIn).g

/-- The namespace after a sequence of evaluations starting from `g`. -/
def endG (g : PyState) : List Call → PyState
  | [] => g
  | c :: rest => endG (callGOut c) rest

/-- Whether a sequence of evaluations is a chain: each one runs against
exactly the namespace the previous one left behind. -/
def chainedB (g : PyState) : List Call → Bool
  | [] => true
  | c :: rest => decide (c.gIn = g) && chainedB (callGOut c) rest

/-- Whether a snippet binds a given name. -/
def assignsStmt (n : List Char) : Stmt → Bool
  | .assign m _ => decide (m = n)
  | _ => false

/-- A snippet that parses and contains no assignment to `n` (an
unparsable snippet also leaves every binding untouched). -/
def noAssign (n : List Char) (src : List Char) : Bool :=
  match miniParse src with
  | .error _ => true
  | .ok ss => ss.all (fun p => !assignsStmt n p.2)

/-! Basic properties of the text-scanning primitives. -/

theorem startsWith_ex {t l : List Char} (h : startsWith t l = true) : ∃ u, l = t ++ u := by
  induction t generalizing l with
  | nil => exact ⟨l, rfl⟩
  | cons a as ih =>
    cases l with
    | nil => simp [startsWith] at h
    | cons b bs =>
      simp only [startsWith, Bool.and_eq_true, beq_iff_eq] at h
      obtain ⟨u, hu⟩ := ih h.2
      exact ⟨u, by simp [h.1, hu]⟩

theorem startsWith_append_self (t u : List Char) : startsWith t (t ++ u) = true := by
  induction t with
  | nil => rfl
  | cons a as ih => simp [startsWith, ih]

theorem splitLinesAux_join (cs : List Char) :
    ∀ acc, (splitLinesAux acc cs).flatten = acc.reverse ++ cs := by
  induction cs with
  | nil =>
    intro acc
    by_cases h : acc.isEmpty <;>
      simp_all [splitLinesAux, List.isEmpty_iff]
  | cons c rest ih =>
    intro acc
    by_cases h : c = '\n'
    · subst h; simp [splitLinesAux, ih]
    · simp [splitLinesAux, h, ih]

theorem splitLines_join (cs : List Char) : (splitLines cs).flatten = cs := by
  simpa using splitLinesAux_join cs []

theorem startsClose_true {l : List Char} (h : startsClose l = true) :
    ∃ r, l = '?' :: '>' :: r := by
  match l with
  | [] => simp [startsClose] at h
  | [_] => simp [startsClose] at h
  | a :: b :: r =>
    simp only [startsClose, Bool.and_eq_true, beq_iff_eq] at h
    exact ⟨r, by simp [h.1, h.2]⟩

theorem startsClose_cons : startsClose ('?' :: '>' :: r) = true := by
  simp [startsClose]

theorem startsOpen_true {l : List Char} (h : startsOpen l = true) :
    ∃ r, l = '<' :: '?' :: r := by
  match l with
  | [] => simp [startsOpen] at h
  | [_] => simp [startsOpen] at h
  | a :: b :: r =>
    simp only [startsOpen, Bool.and_eq_true, beq_iff_eq] at h
    exact ⟨r, by simp [h.1, h.2]⟩

theorem containsClose_append {ys : List Char} (xs : List Char)
    (h : containsClose ys = true) : containsClose (xs ++ ys) = true := by
  induction xs with
  | nil => simpa using h
  | cons x xs ih => simp only [List.cons_append, containsClose, List.append_eq, ih, Bool.or_true]

theorem containsOpen_append {ys : List Char} (xs : List Char)
    (h : containsOpen ys = true) : containsOpen (xs ++ ys) = true := by
  induction xs with
  | nil => simpa using h
  | cons x xs ih => simp only [List.cons_append, containsOpen, List.append_eq, ih, Bool.or_true]

theorem findClose_none_iff (l : List Char) :
    findClose l = none ↔ containsClose l = false := by
  induction l with
  | nil => simp [findClose, containsClose]
  | cons c rest ih =>
    by_cases h : startsClose (c :: rest) = true
    · simp [findClose, containsClose, h]
    · simp only [Bool.not_eq_true] at h
      simp [findClose, containsClose, h, Option.map_eq_none, ih]

theorem findClose_spec {l pre aft : List Char} (h : findClose l = some (pre, aft)) :
    l = pre ++ '?' :: '>' :: aft := by
  induction l generalizing pre aft with
  | nil => simp [findClose] at h
  | cons c rest ih =>
    by_cases hs : startsClose (c :: rest) = true
    · obtain ⟨r, hr⟩ := startsClose_true hs
      rw [findClose, if_pos hs] at h
      obtain ⟨h1, h2⟩ := Prod.mk.injEq .. ▸ Option.some.injEq .. ▸ h
      cases hr
      simp at h1 h2
      subst h1
      simp [← h2]
    · rw [findClose, if_neg hs] at h
      cases hfc : findClose rest with
      | none => simp [hfc] at h
      | some p =>
        obtain ⟨b, a⟩ := p
        simp only [hfc, Option.map_some] at h
        obtain ⟨h1, h2⟩ := Prod.mk.injEq .. ▸ Option.some.injEq .. ▸ h
        subst h2
        rw [← h1]
        simpa using ih hfc

theorem findClose_min {l pre aft : List Char} (h : findClose l = some (pre, aft)) :
    ∀ p₂ a₂, l = p₂ ++ '?' :: '>' :: a₂ → pre.length ≤ p₂.length := by
  induction l generalizing pre aft with
  | nil => simp [findClose] at h
  | cons c rest ih =>
    intro p₂ a₂ h₂
    by_cases hs : startsClose (c :: rest) = true
    · rw [findClose, if_pos hs] at h
      obtain ⟨h1, -⟩ := Prod.mk.injEq .. ▸ Option.some.injEq .. ▸ h
      simp [← h1]
    · rw [findClose, if_neg hs] at h
      cases p₂ with
      | nil =>
        exfalso
        apply hs
        simp only [List.nil_append] at h₂
        rw [h₂]; exact startsClose_cons
      | cons q qs =>
        cases hfc : findClose rest with
        | none => simp [hfc] at h
        | some p =>
          obtain ⟨b, a⟩ := p
          simp only [hfc, Option.map_some] at h
          obtain ⟨h1, -⟩ := Prod.mk.injEq .. ▸ Option.some.injEq .. ▸ h
          simp only [List.cons_append, List.cons.injEq] at h₂
          have := ih hfc qs a₂ h₂.2
          simp [← h1, List.length_cons]
          omega

theorem splitAtClose_spec {cs b a : List Char} (h : splitAtClose cs = some (b, a)) :
    cs = b ++ '?' :: '>' :: a ∧ ∀ x ∈ b, x ≠ '\n' := by
  induction cs generalizing b a with
  | nil => simp [splitAtClose] at h
  | cons c rest ih =>
    by_cases hs : startsClose (c :: rest) = true
    · obtain ⟨r, hr⟩ := startsClose_true hs
      rw [splitAtClose, if_pos hs] at h
      obtain ⟨h1, h2⟩ := Prod.mk.injEq .. ▸ Option.some.injEq .. ▸ h
      cases hr
      simp at h1 h2
      subst h1
      simp [← h2]
    · rw [splitAtClose, if_neg hs] at h
      by_cases hn : c = '\n'
      · simp [hn] at h
      · rw [if_neg hn] at h
        cases hsc : splitAtClose rest with
        | none => simp [hsc] at h
        | some p =>
          obtain ⟨b', a'⟩ := p
          simp only [hsc, Option.map_some] at h
          obtain ⟨h1, h2⟩ := Prod.mk.injEq .. ▸ Option.some.injEq .. ▸ h
          subst h2
          obtain ⟨ihe, ihn⟩ := ih hsc
          constructor
          · rw [← h1]; simpa using ihe
          · intro x hx
            rw [← h1] at hx
            rcases List.mem_cons.mp hx with h | h
            · subst h; exact hn
            · exact ihn x h

theorem splitAtClose_min {cs b a : List Char} (h : splitAtClose cs = some (b, a)) :
    ∀ b₂ a₂, cs = b₂ ++ '?' :: '>' :: a₂ → b.length ≤ b₂.length := by
  induction cs generalizing b a with
  | nil => simp [splitAtClose] at h
  | cons c rest ih =>
    intro b₂ a₂ h₂
    by_cases hs : startsClose (c :: rest) = true
    · rw [splitAtClose, if_pos hs] at h
      obtain ⟨h1, -⟩ := Prod.mk.injEq .. ▸ Option.some.injEq .. ▸ h
      simp [← h1]
    · rw [splitAtClose, if_neg hs] at h
      cases b₂ with
      | nil =>
        exfalso
        apply hs
        simp only [List.nil_append] at h₂
        rw [h₂]; exact startsClose_cons
      | cons q qs =>
        by_cases hn : c = '\n'
        · simp [hn] at h
        · rw [if_neg hn] at h
          cases hsc : splitAtClose rest with
          | none => simp [hsc] at h
          | some p =>
            obtain ⟨b', a'⟩ := p
            simp only [hsc, Option.map_some] at h
            obtain ⟨h1, -⟩ := Prod.mk.injEq .. ▸ Option.some.injEq .. ▸ h
            simp only [List.cons_append, List.cons.injEq] at h₂
            have := ih hsc qs a₂ h₂.2
            simp only [← h1, List.length_cons]
            omega

theorem findLazyBody_spec {cs b a : List Char} (h : findLazyBody cs = some (b, a)) :
    cs = b ++ '?' :: '>' :: a ∧ b ≠ [] ∧ ∀ x ∈ b, x ≠ '\n' := by
  cases cs with
  | nil => simp [findLazyBody] at h
  | cons c rest =>
    by_cases hn : c = '\n'
    · simp [findLazyBody, hn] at h
    · rw [findLazyBody, if_neg hn] at h
      cases hsc : splitAtClose rest with
      | none => simp [hsc] at h
      | some p =>
        obtain ⟨b', a'⟩ := p
        simp only [hsc, Option.map_some] at h
        obtain ⟨h1, h2⟩ := Prod.mk.injEq .. ▸ Option.some.injEq .. ▸ h
        subst h2
        obtain ⟨he, hnl⟩ := splitAtClose_spec hsc
        refine ⟨by rw [← h1]; simpa using he, by rw [← h1]; simp, ?_⟩
        intro x hx
        rw [← h1] at hx
        rcases List.mem_cons.mp hx with h | h
        · subst h; exact hn
        · exact hnl x h

theorem findLazyBody_min {cs b a : List Char} (h : findLazyBody cs = some (b, a)) :
    ∀ b₂ a₂, cs = b₂ ++ '?' :: '>' :: a₂ → b₂ ≠ [] → b.length ≤ b₂.length := by
  cases cs with
  | nil => simp [findLazyBody] at h
  | cons c rest =>
    intro b₂ a₂ h₂ hne
    by_cases hn : c = '\n'
    · simp [findLazyBody, hn] at h
    · rw [findLazyBody, if_neg hn] at h
      cases hsc : splitAtClose rest with
      | none => simp [hsc] at h
      | some p =>
        obtain ⟨b', a'⟩ := p
        simp only [hsc, Option.map_some] at h
        obtain ⟨h1, -⟩ := Prod.mk.injEq .. ▸ Option.some.injEq .. ▸ h
        cases b₂ with
        | nil => exact absurd rfl hne
        | cons q qs =>
          simp only [List.cons_append, List.cons.injEq] at h₂
          have := splitAtClose_min hsc qs a₂ h₂.2
          simp only [← h1, List.length_cons]
          omega

theorem matchPiBegTail_spec {t rest : List Char} {m : Nat}
    (h : matchPiBegTail t rest = some m) :
    ∃ ws c tail, rest = ws ++ t ++ c :: tail ∧ ws.all isSpc = true ∧ isSpc c = true ∧
      m = ws.length + t.length + 1 ∧ rest.drop m = tail ∧
      rest.drop (m - 1) = c :: tail := by
  induction rest generalizing m with
  | nil => simp [matchPiBegTail] at h
  | cons c rest ih =>
    by_cases hs : isSpc c = true
    · rw [matchPiBegTail, if_pos hs] at h
      cases hm : matchPiBegTail t rest with
      | none => simp [hm] at h
      | some m' =>
        rw [hm] at h
        have hmm : m' + 1 = m := by simpa using h
        subst hmm
        obtain ⟨ws, d, tail, he, hws, hd, hm', hdrop, hdrop1⟩ := ih hm
        refine ⟨c :: ws, d, tail, by simp [he], by simp [hws, hs], hd, by simp; omega, ?_, ?_⟩
        · have : m' + 1 = m' + 1 := rfl
          simpa [List.drop_succ_cons] using hdrop
        · have h1 : m' + 1 - 1 = (m' - 1) + 1 := by
            rcases Nat.eq_zero_or_pos m' with h0 | h0
            · subst h0
              exfalso
              obtain ⟨-, -, -, -, h4, -⟩ := ih hm
              omega
            · omega
          rw [h1, List.drop_succ_cons]
          exact hdrop1
    · rw [matchPiBegTail, if_neg hs] at h
      by_cases hsw : startsWith t (c :: rest) = true
      · rw [if_pos hsw] at h
        obtain ⟨u, hu⟩ := startsWith_ex hsw
        cases hdt : (c :: rest).drop t.length with
        | nil =>
          rw [hdt] at h
          exact absurd h (by simp)
        | cons d tail =>
          rw [hdt] at h
          have h' : (if isSpc d = true then some (t.length + 1) else none) = some m := h
          clear h
          by_cases hd : isSpc d = true
          · rw [if_pos hd] at h'
            obtain rfl := (Option.some.injEq .. ▸ h').symm
            have hu' : u = d :: tail := by
              rw [hu, List.drop_left] at hdt
              exact hdt
            refine ⟨[], d, tail, by simpa [hu'] using hu, rfl, hd, by simp, ?_, ?_⟩
            · rw [hu, hu']
              have : t.length + 1 = t.length + 1 := rfl
              calc (t ++ d :: tail).drop (t.length + 1)
                  = ((t ++ [d]) ++ tail).drop (t ++ [d]).length := by simp
                _ = tail := List.drop_left _ _
            · rw [hu, hu']
              simpa using List.drop_left t (d :: tail)
          · rw [if_neg hd] at h'
            exact absurd h' (by simp)
      · rw [if_neg hsw] at h
        exact absurd h (by simp)

theorem matchPiBegAt_spec {t cs : List Char} {n : Nat}
    (h : matchPiBegAt t cs = some n) :
    ∃ ws c tail, cs = '<' :: '?' :: (ws ++ t ++ c :: tail) ∧ ws.all isSpc = true ∧
      isSpc c = true ∧ n = ws.length + t.length + 3 ∧ cs.drop n = tail ∧
      cs.drop (n - 1) = c :: tail := by
  match cs with
  | [] => simp [matchPiBegAt] at h
  | [_] => simp [matchPiBegAt] at h
  | a :: b :: rest =>
    rw [matchPiBegAt] at h
    by_cases hab : a = '<' ∧ b = '?'
    · rw [if_pos hab] at h
      cases hm : matchPiBegTail t rest with
      | none => simp [hm] at h
      | some m =>
        rw [hm] at h
        have hmm : m + 2 = n := by simpa using h
        subst hmm
        obtain ⟨ws, c, tail, he, hws, hc, hm', hdrop, hdrop1⟩ := matchPiBegTail_spec hm
        obtain ⟨rfl, rfl⟩ := hab
        refine ⟨ws, c, tail, by simp [he], hws, hc, by omega, ?_, ?_⟩
        · simpa [List.drop_succ_cons] using hdrop
        · have h1 : m + 2 - 1 = m - 1 + 2 := by
            have : 1 ≤ m := by omega
            omega
          rw [h1]
          simpa [List.drop_succ_cons] using hdrop1
    · rw [if_neg hab] at h; exact absurd h (by simp)

theorem matchPiTagAt_spec {t cs b a : List Char}
    (h : matchPiTagAt t cs = some (b, a)) :
    ∃ ws c, cs = '<' :: '?' :: (ws ++ t ++ c :: (b ++ '?' :: '>' :: a)) ∧
      ws.all isSpc = true ∧ isSpc c = true ∧ b ≠ [] ∧ ∀ x ∈ b, x ≠ '\n' := by
  rw [matchPiTagAt] at h
  cases hm : matchPiBegAt t cs with
  | none => rw [hm] at h; exact absurd h (by simp)
  | some n =>
    rw [hm] at h
    obtain ⟨ws, c, tail, he, hws, hc, -, hdrop, -⟩ := matchPiBegAt_spec hm
    obtain ⟨hbody, hne, hnl⟩ := findLazyBody_spec h
    rw [hdrop] at hbody
    exact ⟨ws, c, by rw [he, hbody], hws, hc, hne, hnl⟩

theorem matchPiTagAt_beg_none {t cs : List Char} (h : matchPiBegAt t cs = none) :
    matchPiTagAt t cs = none := by
  rw [matchPiTagAt, h]

theorem matchPiTag_close_head {t cs b a : List Char} {n : Nat}
    (hm : matchPiBegAt t cs = some n) (hsc : startsClose (cs.drop n) = true)
    (h : matchPiTagAt t cs = some (b, a)) :
    ∃ b', b = '?' :: '>' :: b' := by
  rw [matchPiTagAt, hm] at h
  replace h : findLazyBody (cs.drop n) = some (b, a) := h
  obtain ⟨r, hr⟩ := startsClose_true hsc
  rw [hr] at h
  simp only [findLazyBody] at h
  rw [if_neg (by decide)] at h
  cases hsp : splitAtClose ('>' :: r) with
  | none =>
    rw [hsp] at h
    exact absurd h (by simp)
  | some p =>
    obtain ⟨b1, a1⟩ := p
    rw [hsp] at h
    have hb : b = '?' :: b1 := by
      simp only [Option.map_some'] at h
      obtain ⟨h1, -⟩ := Prod.mk.injEq .. ▸ Option.some.injEq .. ▸ h
      exact h1.symm
    have hsc2 : startsClose ('>' :: r) = false := by
      cases r <;> simp [startsClose]
    rw [splitAtClose, if_neg (by simp [hsc2]), if_neg (by decide)] at hsp
    cases hsp2 : splitAtClose r with
    | none =>
      rw [hsp2] at hsp
      exact absurd hsp (by simp)
    | some q =>
      obtain ⟨b2, a2⟩ := q
      rw [hsp2] at hsp
      simp only [Option.map_some'] at hsp
      obtain ⟨h2, -⟩ := Prod.mk.injEq .. ▸ Option.some.injEq .. ▸ hsp
      refine ⟨b2, ?_⟩
      rw [hb, ← h2]

theorem searchPiBeg_ws {t cs pre rest : List Char}
    (h : searchPiBeg t cs = some (pre, rest)) :
    ∃ c tail, rest = c :: tail ∧ isSpc c = true := by
  induction cs generalizing pre rest with
  | nil => simp [searchPiBeg] at h
  | cons c cs ih =>
    rw [searchPiBeg] at h
    cases hm : matchPiBegAt t (c :: cs) with
    | some n =>
      rw [hm] at h
      obtain ⟨h1, h2⟩ := Prod.mk.injEq .. ▸ Option.some.injEq .. ▸ h
      obtain ⟨ws, d, tail, -, -, hd, -, -, hdrop1⟩ := matchPiBegAt_spec hm
      exact ⟨d, tail, by rw [← h2, hdrop1], hd⟩
    | none =>
      rw [hm] at h
      cases hs : searchPiBeg t cs with
      | none => simp [hs] at h
      | some p =>
        obtain ⟨b, r⟩ := p
        rw [hs] at h
        obtain ⟨-, h2⟩ := Prod.mk.injEq .. ▸ Option.some.injEq .. ▸ h
        obtain ⟨d, tail, he, hd⟩ := ih hs
        exact ⟨d, tail, by rw [← h2, he], hd⟩

theorem searchPiBeg_none_cons {t : List Char} {c : Char} {cs : List Char} :
    searchPiBeg t (c :: cs) = none ↔
      matchPiBegAt t (c :: cs) = none ∧ searchPiBeg t cs = none := by
  rw [searchPiBeg]
  cases hm : matchPiBegAt t (c :: cs) with
  | some n => simp
  | none =>
    cases hs : searchPiBeg t cs with
    | none => simp
    | some p => simp

/-! Whitespace between the opening marker and the target (the `\s*` of
the pattern) does not affect what is matched. -/

theorem matchPiBegTail_ws (t ws rest : List Char) (h : ws.all isSpc = true) :
    matchPiBegTail t (ws ++ rest) = (matchPiBegTail t rest).map (· + ws.length) := by
  induction ws with
  | nil =>
    simp only [List.nil_append, List.length_nil]
    cases matchPiBegTail t rest <;> simp
  | cons w ws ih =>
    simp only [List.all_cons, Bool.and_eq_true] at h
    rw [List.cons_append, matchPiBegTail, if_pos h.1, ih h.2]
    cases matchPiBegTail t rest <;> simp <;> omega

theorem drop_append_len {α : Type} (ws rest : List α) (k : Nat) :
    (ws ++ rest).drop (ws.length + k) = rest.drop k := by
  induction ws with
  | nil => simp
  | cons w ws ih =>
    have : (w :: ws).length + k = (ws.length + k) + 1 := by simp; omega
    rw [this, List.cons_append, List.drop_succ_cons, ih]

theorem drop_cons2 {α : Type} (a b : α) (l : List α) (k : Nat) :
    (a :: b :: l).drop (k + 2) = l.drop k := by
  rw [show k + 2 = (k + 1) + 1 from rfl, List.drop_succ_cons, List.drop_succ_cons]

theorem matchPiTagAt_ws (t ws rest : List Char) (h : ws.all isSpc = true) :
    matchPiTagAt t ('<' :: '?' :: (ws ++ rest)) = matchPiTagAt t ('<' :: '?' :: rest) := by
  rw [matchPiTagAt, matchPiTagAt]
  have hb : matchPiBegAt t ('<' :: '?' :: (ws ++ rest))
      = (matchPiBegAt t ('<' :: '?' :: rest)).map (· + ws.length) := by
    rw [matchPiBegAt, matchPiBegAt, if_pos ⟨rfl, rfl⟩, if_pos ⟨rfl, rfl⟩,
      matchPiBegTail_ws t ws rest h]
    cases matchPiBegTail t rest <;> simp <;> omega
  rw [hb]
  cases hm : matchPiBegAt t ('<' :: '?' :: rest) with
  | none => simp
  | some n =>
    simp only [Option.map_some']
    have hn2 : 2 ≤ n := by
      obtain ⟨ws', c, tail, -, -, -, hn, -, -⟩ := matchPiBegAt_spec hm
      omega
    have hd : ('<' :: '?' :: (ws ++ rest)).drop (n + ws.length)
        = ('<' :: '?' :: rest).drop n := by
      have h2 : n + ws.length = (ws.length + (n - 2)) + 2 := by omega
      have h3 : n = (n - 2) + 2 := by omega
      rw [h2, drop_cons2, drop_append_len]
      conv_rhs => rw [h3, drop_cons2]
    rw [hd]

theorem matchPiBegTail_no_ws {c0 : Char} {t' ws : List Char} {x : Char} {rest : List Char}
    (hc : isSpc c0 = false) (hws : ws.all isSpc = true) (hx : isSpc x = false) :
    matchPiBegTail (c0 :: t') (ws ++ (c0 :: t') ++ x :: rest) = none := by
  induction ws with
  | nil =>
    simp only [List.nil_append, List.cons_append]
    rw [matchPiBegTail, if_neg (by simp [hc])]
    have hsw : startsWith (c0 :: t') (c0 :: (t' ++ x :: rest)) = true := by
      simpa using startsWith_append_self (c0 :: t') (x :: rest)
    rw [if_pos hsw]
    have hdt : (c0 :: (t' ++ x :: rest)).drop (c0 :: t').length = x :: rest := by
      simpa using List.drop_left (c0 :: t') (x :: rest)
    rw [hdt]
    show (if isSpc x = true then some ((c0 :: t').length + 1) else none) = none
    rw [if_neg (by simp [hx])]
  | cons w ws ih =>
    simp only [List.all_cons, Bool.and_eq_true] at hws
    simp only [List.cons_append, List.append_assoc] at ih ⊢
    rw [matchPiBegTail, if_pos hws.1]
    rw [ih hws.2]
    rfl


/-! Branch equations for the scanner, conditioned on the tests the code
performs, to reason about one case at a time. -/

theorem procRest_eq_noopen {t : List Char} {st : ScanSt} {ln : Nat} {line : List Char}
    (hg : containsOpen line = false) :
    procRest t st ln line = ⟨none, st, line, []⟩ := by
  simp only [procRest, hg]
  simp

theorem procRest_eq_suberr {t : List Char} {st : ScanSt} {ln : Nat} {line : List Char}
    {e : PyError} (hg : containsOpen line = true)
    (hsb : (subPiTags t ln line.length line st.g).err = some e) :
    procRest t st ln line =
      ⟨some e, { st with g := (subPiTags t ln line.length line st.g).g, begLn := ln },
        [], (subPiTags t ln line.length line st.g).calls⟩ := by
  simp only [procRest, hg, if_true, hsb]

theorem procRest_eq_open {t : List Char} {st : ScanSt} {ln : Nat} {line pre wsrest : List Char}
    (hg : containsOpen line = true)
    (hsb : (subPiTags t ln line.length line st.g).err = none)
    (hs : searchPiBeg t (subPiTags t ln line.length line st.g).line = some (pre, wsrest)) :
    procRest t st ln line =
      ⟨none, ⟨(subPiTags t ln line.length line st.g).g, true, ln, wsrest⟩,
        pre, (subPiTags t ln line.length line st.g).calls⟩ := by
  simp only [procRest, hg, if_true, hsb, hs]

theorem procRest_eq_plain {t : List Char} {st : ScanSt} {ln : Nat} {line : List Char}
    (hg : containsOpen line = true)
    (hsb : (subPiTags t ln line.length line st.g).err = none)
    (hs : searchPiBeg t (subPiTags t ln line.length line st.g).line = none) :
    procRest t st ln line =
      ⟨none, { st with g := (subPiTags t ln line.length line st.g).g, begLn := ln },
        (subPiTags t ln line.length line st.g).line,
        (subPiTags t ln line.length line st.g).calls⟩ := by
  simp only [procRest, hg, if_true, hsb, hs]

theorem procLine_eq_cont {t : List Char} {st : ScanSt} {ln : Nat} {line : List Char}
    (h0 : st.inTag = true) (hfc : findClose line = none) :
    procLine t st ln line = ⟨none, { st with buf := st.buf ++ line }, [], []⟩ := by
  simp only [procLine, h0, if_true, hfc]

theorem procLine_eq_closeerr {t : List Char} {st : ScanSt} {ln : Nat}
    {line pre after : List Char} {e : PyError}
    (h0 : st.inTag = true) (hfc : findClose line = some (pre, after))
    (hex : (exec_and_dump (st.buf ++ pre) st.begLn st.g).err = some e) :
    procLine t st ln line =
      ⟨some e, { st with g := (exec_and_dump (st.buf ++ pre) st.begLn st.g).g },
        [], [⟨st.buf ++ pre, st.begLn, st.g⟩]⟩ := by
  simp only [procLine, h0, if_true, hfc, hex]

theorem procLine_eq_close {t : List Char} {st : ScanSt} {ln : Nat}
    {line pre after : List Char} {r : ExecR}
    (h0 : st.inTag = true) (hfc : findClose line = some (pre, after))
    (hr : exec_and_dump (st.buf ++ pre) st.begLn st.g = r) (hex : r.err = none) :
    procLine t st ln line =
      ⟨(procRest t (afterExecSt st r.g) ln after).err,
        (procRest t (afterExecSt st r.g) ln after).st,
        r.stdout ++ (procRest t (afterExecSt st r.g) ln after).out,
        ⟨st.buf ++ pre, st.begLn, st.g⟩ ::
          (procRest t (afterExecSt st r.g) ln after).calls⟩ := by
  simp only [procLine, h0, if_true, hfc, hr, hex, afterExecSt]

theorem procLine_not_inTag {t : List Char} {st : ScanSt} {ln : Nat} {line : List Char}
    (h : st.inTag = false) : procLine t st ln line = procRest t st ln line := by
  simp only [procLine, h]
  simp

theorem procLines_cons_err {t : List Char} {st : ScanSt} {ln : Nat}
    {l : List Char} {ls : List (List Char)} {e : PyError}
    (hr : (procLine t st ln l).err = some e) :
    procLines t st ln (l :: ls) = procLine t st ln l := by
  simp only [procLines, hr]

theorem procLines_cons_ok {t : List Char} {st : ScanSt} {ln : Nat}
    {l : List Char} {ls : List (List Char)}
    (hr : (procLine t st ln l).err = none) :
    procLines t st ln (l :: ls) =
      ⟨(procLines t (procLine t st ln l).st (ln + 1) ls).err,
        (procLines t (procLine t st ln l).st (ln + 1) ls).st,
        (procLine t st ln l).out ++ (procLines t (procLine t st ln l).st (ln + 1) ls).out,
        (procLine t st ln l).calls ++
          (procLines t (procLine t st ln l).st (ln + 1) ls).calls⟩ := by
  simp only [procLines, hr]

/-! Lines free of the opening pattern pass through unchanged. -/

theorem subPiTags_id {t : List Char} {ln : Nat} :
    ∀ (fuel : Nat) (cs : List Char) (g : PyState), searchPiBeg t cs = none →
      subPiTags t ln fuel cs g = ⟨none, cs, g, []⟩ := by
  intro fuel
  induction fuel with
  | zero =>
    intro cs g _
    cases cs <;> rfl
  | succ fuel ih =>
    intro cs g hn
    cases cs with
    | nil => rfl
    | cons c rest =>
      obtain ⟨hm, hs⟩ := searchPiBeg_none_cons.mp hn
      rw [subPiTags, matchPiTagAt_beg_none hm, ih rest g hs]

theorem procRest_id {t : List Char} {st : ScanSt} {ln : Nat} {line : List Char}
    (hn : searchPiBeg t line = none) :
    (procRest t st ln line).err = none ∧ (procRest t st ln line).out = line ∧
      (procRest t st ln line).calls = [] ∧ (procRest t st ln line).st.g = st.g ∧
      (procRest t st ln line).st.inTag = st.inTag ∧
      (procRest t st ln line).st.buf = st.buf := by
  by_cases hg : containsOpen line = true
  · have hsub := @subPiTags_id t ln line.length line st.g hn
    have h1 : (subPiTags t ln line.length line st.g).err = none := by rw [hsub]
    have h2 : (subPiTags t ln line.length line st.g).line = line := by rw [hsub]
    have h3 : searchPiBeg t (subPiTags t ln line.length line st.g).line = none := by
      rw [h2]; exact hn
    rw [procRest_eq_plain hg h1 h3, hsub]
    simp
  · rw [procRest_eq_noopen (by simpa using hg)]
    simp

theorem procLines_id {t : List Char} :
    ∀ (lines : List (List Char)) (st : ScanSt) (ln : Nat), st.inTag = false →
      (∀ l ∈ lines, searchPiBeg t l = none) →
      (procLines t st ln lines).err = none ∧
        (procLines t st ln lines).out = lines.flatten ∧
        (procLines t st ln lines).calls = [] ∧
        (procLines t st ln lines).st.g = st.g ∧
        (procLines t st ln lines).st.inTag = false := by
  intro lines
  induction lines with
  | nil =>
    intro st ln h _
    exact ⟨rfl, by simp [procLines], rfl, rfl, h⟩
  | cons l ls ih =>
    intro st ln hT hall
    have hl := hall l (by simp)
    have hls : ∀ l' ∈ ls, searchPiBeg t l' = none := fun l' h' => hall l' (by simp [h'])
    have hpl : procLine t st ln l = procRest t st ln l := procLine_not_inTag hT
    obtain ⟨he, ho, hc, hgq, hTq, -⟩ := @procRest_id t st ln l hl
    rw [← hpl] at he ho hc hgq hTq
    have hTf : (procLine t st ln l).st.inTag = false := by rw [hTq, hT]
    obtain ⟨ihe, iho, ihc, ihg, ihT⟩ := ih (procLine t st ln l).st (ln + 1) hTf hls
    rw [procLines_cons_ok he]
    refine ⟨ihe, ?_, ?_, by rw [ihg, hgq], ihT⟩
    · simp only [List.flatten_cons, iho, ho]
    · simp only [ihc, hc, List.append_nil]

/-! Where an open multi-line tag can come from. -/

theorem procRest_open {t : List Char} {st : ScanSt} {ln : Nat} {line : List Char}
    (he : (procRest t st ln line).err = none)
    (hT : (procRest t st ln line).st.inTag = true)
    (h0 : st.inTag = false) :
    (procRest t st ln line).st.begLn = ln ∧ containsOpen line = true := by
  by_cases hg : containsOpen line = true
  · cases hsb : (subPiTags t ln line.length line st.g).err with
    | some e =>
      rw [procRest_eq_suberr hg hsb] at he
      exact absurd he (by simp)
    | none =>
      cases hs : searchPiBeg t (subPiTags t ln line.length line st.g).line with
      | some p =>
        obtain ⟨pre, wsrest⟩ := p
        rw [procRest_eq_open hg hsb hs]
        exact ⟨rfl, hg⟩
      | none =>
        rw [procRest_eq_plain hg hsb hs] at hT
        exact absurd hT (by simp [h0])
  · rw [procRest_eq_noopen (by simpa using hg)] at hT
    exact absurd hT (by simp [h0])

theorem procLine_open {t : List Char} {st : ScanSt} {ln : Nat} {line : List Char}
    (he : (procLine t st ln line).err = none)
    (hT : (procLine t st ln line).st.inTag = true) :
    (st.inTag = true ∧ findClose line = none ∧
      (procLine t st ln line).st.begLn = st.begLn) ∨
    ((procLine t st ln line).st.begLn = ln ∧ containsOpen line = true) := by
  by_cases h0 : st.inTag = true
  · cases hfc : findClose line with
    | none =>
      refine .inl ⟨h0, by simp [hfc], ?_⟩
      rw [procLine_eq_cont h0 hfc]
    | some p =>
      obtain ⟨pre, after⟩ := p
      cases hex : (exec_and_dump (st.buf ++ pre) st.begLn st.g).err with
      | some e =>
        rw [procLine_eq_closeerr h0 hfc hex] at he
        exact absurd he (by simp)
      | none =>
        have hcl := @procLine_eq_close t st ln line pre after _ h0 hfc rfl hex
        rw [hcl] at he hT
        have he' : (procRest t (afterExecSt st
            (exec_and_dump (st.buf ++ pre) st.begLn st.g).g) ln after).err = none := he
        have hT' : (procRest t (afterExecSt st
            (exec_and_dump (st.buf ++ pre) st.begLn st.g).g) ln after).st.inTag = true := hT
        have h1 : (afterExecSt st
            (exec_and_dump (st.buf ++ pre) st.begLn st.g).g).inTag = false := rfl
        obtain ⟨hb, hcl2⟩ := procRest_open he' hT' h1
        refine .inr ⟨?_, ?_⟩
        · rw [hcl]
          exact hb
        · have hline : line = (pre ++ ['?', '>']) ++ after := by
            simpa using findClose_spec hfc
          rw [hline]
          exact containsOpen_append _ hcl2
  · have h0' : st.inTag = false := by simpa using h0
    rw [procLine_not_inTag h0'] at he hT ⊢
    exact .inr (procRest_open he hT h0')

theorem procLine_still_open {t : List Char} {st : ScanSt} {ln : Nat} {line : List Char}
    (h0 : st.inTag = true) (hfc : findClose line = none) :
    (procLine t st ln line).err = none ∧ (procLine t st ln line).st.inTag = true ∧
      (procLine t st ln line).st.begLn = st.begLn := by
  rw [procLine_eq_cont h0 hfc]
  exact ⟨rfl, h0, rfl⟩

theorem procLines_open {t : List Char} :
    ∀ (lines : List (List Char)) (st : ScanSt) (ln : Nat),
      (procLines t st ln lines).err = none →
      (procLines t st ln lines).st.inTag = true →
      (st.inTag = true ∧ (procLines t st ln lines).st.begLn = st.begLn ∧
        ∀ l ∈ lines, containsClose l = false) ∨
      (∃ k, ∃ (hk : k < lines.length),
        (procLines t st ln lines).st.begLn = ln + k ∧
        containsOpen (lines.get ⟨k, hk⟩) = true ∧
        ∀ j, (hj : j < lines.length) → k < j →
          containsClose (lines.get ⟨j, hj⟩) = false) := by
  intro lines
  induction lines with
  | nil =>
    intro st ln _ hT
    exact .inl ⟨hT, rfl, by simp⟩
  | cons l ls ih =>
    intro st ln he hT
    cases hr : (procLine t st ln l).err with
    | some e =>
      rw [procLines_cons_err hr] at he
      rw [hr] at he
      exact absurd he (by simp)
    | none =>
      rw [procLines_cons_ok hr] at he hT ⊢
      simp only at he hT ⊢
      rcases ih (procLine t st ln l).st (ln + 1) he hT with
        ⟨hT1, hbeg, hnone⟩ | ⟨k, hk, hbeg, hopen, hnone⟩
      · rcases procLine_open hr hT1 with ⟨h0, hfc, hb⟩ | ⟨hb, hcl⟩
        · refine .inl ⟨h0, ?_, ?_⟩
          · rw [hbeg, hb]
          · intro l' hl'
            rcases List.mem_cons.mp hl' with h | h
            · subst h
              exact (findClose_none_iff l').mp hfc
            · exact hnone l' h
        · have hk0 : 0 < (l :: ls).length := by simp
          refine .inr ⟨0, hk0, ?_, by simpa using hcl, ?_⟩
          · rw [hbeg, hb]
            omega
          · intro j hj hjpos
            cases j with
            | zero => omega
            | succ j' =>
              have hj' : j' < ls.length := by simpa using hj
              simpa using hnone (ls.get ⟨j', hj'⟩) (List.get_mem ls j' hj')
      · have hk1 : k + 1 < (l :: ls).length := by simpa using hk
        refine .inr ⟨k + 1, hk1, ?_, ?_, ?_⟩
        · rw [hbeg]
          omega
        · simpa using hopen
        · intro j hj hjk
          cases j with
          | zero => omega
          | succ j' =>
            have hj' : j' < ls.length := by simpa using hj
            have := hnone j' hj' (by omega)
            simpa using this

/-! Stdout threading: execution appends to the current stdout and its
other effects do not depend on what was already there. -/

theorem runStmt_out (s : Stmt) (g : PyState) (out : List Char) :
    (runStmt s g out).err = (runStmt s g []).err ∧
      (runStmt s g out).g = (runStmt s g []).g ∧
      (runStmt s g out).out = out ++ (runStmt s g []).out := by
  cases s with
  | passS => simp [runStmt]
  | assign n v => simp [runStmt]
  | printLit l => simp [runStmt]
  | printVar n =>
    cases h : lookupV n g with
    | some v => simp [runStmt, h]
    | none => simp [runStmt, h]
  | printDivZero => simp [runStmt]

theorem runStmts_cons_err {k : Nat} {s : Stmt} {rest : List (Nat × Stmt)}
    {g : PyState} {out : List Char} {e : RunErr}
    (hr : (runStmt s g out).err = some e) :
    runStmts ((k, s) :: rest) g out = runStmt s g out := by
  simp only [runStmts, hr]

theorem runStmts_cons_ok {k : Nat} {s : Stmt} {rest : List (Nat × Stmt)}
    {g : PyState} {out : List Char}
    (hr : (runStmt s g out).err = none) :
    runStmts ((k, s) :: rest) g out = runStmts rest (runStmt s g out).g (runStmt s g out).out := by
  simp only [runStmts, hr]

theorem runStmts_out (ss : List (Nat × Stmt)) :
    ∀ (g : PyState) (out : List Char),
      (runStmts ss g out).err = (runStmts ss g []).err ∧
        (runStmts ss g out).g = (runStmts ss g []).g ∧
        (runStmts ss g out).out = out ++ (runStmts ss g []).out := by
  induction ss with
  | nil => intro g out; simp [runStmts]
  | cons p rest ih =>
    intro g out
    obtain ⟨k, s⟩ := p
    obtain ⟨he, hg, ho⟩ := runStmt_out s g out
    cases hre : (runStmt s g []).err with
    | some e =>
      rw [runStmts_cons_err (e := e) (by rw [he, hre]), runStmts_cons_err hre]
      exact ⟨by rw [he], hg, ho⟩
    | none =>
      rw [runStmts_cons_ok (by rw [he, hre]), runStmts_cons_ok hre]
      rw [hg, ho]
      obtain ⟨ihe, ihg, iho⟩ := ih (runStmt s g []).g (out ++ (runStmt s g []).out)
      obtain ⟨ihe2, ihg2, iho2⟩ := ih (runStmt s g []).g (runStmt s g []).out
      refine ⟨by rw [ihe, ihe2], by rw [ihg, ihg2], ?_⟩
      rw [iho, iho2]
      simp

theorem exec_py_parse_err {src : List Char} {ln : Nat} {g : PyState} {stdout : List Char}
    {n : Nat} (hp : miniParse src = .error n) :
    exec_py src ln g stdout =
      ⟨some (.syntaxErr (if ln - 1 = 0 then n else n + (ln - 1))), g, stdout⟩ := by
  simp only [exec_py, hp]

theorem exec_py_run_err {src : List Char} {ln : Nat} {g : PyState} {stdout : List Char}
    {ss : List (Nat × Stmt)} {e : RunErr} (hp : miniParse src = .ok ss)
    (hre : (runStmts (shifted ln ss) g stdout).err = some e) :
    exec_py src ln g stdout =
      ⟨some (.runtimeErr e), (runStmts (shifted ln ss) g stdout).g,
        (runStmts (shifted ln ss) g stdout).out⟩ := by
  simp only [exec_py, hp, hre]

theorem exec_py_run_ok {src : List Char} {ln : Nat} {g : PyState} {stdout : List Char}
    {ss : List (Nat × Stmt)} (hp : miniParse src = .ok ss)
    (hre : (runStmts (shifted ln ss) g stdout).err = none) :
    exec_py src ln g stdout =
      ⟨none, (runStmts (shifted ln ss) g stdout).g,
        (runStmts (shifted ln ss) g stdout).out⟩ := by
  simp only [exec_py, hp, hre]

theorem exec_py_out (src : List Char) (ln : Nat) (g : PyState) (stdout : List Char) :
    (exec_py src ln g stdout).err = (exec_py src ln g []).err ∧
      (exec_py src ln g stdout).g = (exec_py src ln g []).g ∧
      (exec_py src ln g stdout).stdout = stdout ++ (exec_py src ln g []).stdout := by
  cases hp : miniParse src with
  | error n =>
    rw [exec_py_parse_err hp, exec_py_parse_err hp]
    simp
  | ok ss =>
    obtain ⟨he, hg, ho⟩ := runStmts_out (shifted ln ss) g stdout
    cases hre : (runStmts (shifted ln ss) g []).err with
    | some e =>
      rw [exec_py_run_err hp (by rw [he, hre]), exec_py_run_err hp hre]
      exact ⟨rfl, hg, ho⟩
    | none =>
      rw [exec_py_run_ok hp (by rw [he, hre]), exec_py_run_ok hp hre]
      exact ⟨rfl, hg, ho⟩

/-! The trace of snippet evaluations forms a chain through the one
persistent namespace. -/

theorem chainedB_append (g : PyState) (l1 l2 : List Call) :
    chainedB g (l1 ++ l2) = (chainedB g l1 && chainedB (endG g l1) l2) := by
  induction l1 generalizing g with
  | nil => simp [chainedB, endG]
  | cons c rest ih =>
    simp only [List.cons_append, chainedB, endG, List.append_eq, ih, Bool.and_assoc]

theorem endG_append (g : PyState) (l1 l2 : List Call) :
    endG g (l1 ++ l2) = endG (endG g l1) l2 := by
  induction l1 generalizing g with
  | nil => simp [endG]
  | cons c rest ih => simp only [List.cons_append, endG, List.append_eq, ih]

theorem subPiTags_chain {t : List Char} {ln : Nat} :
    ∀ (fuel : Nat) (cs : List Char) (g : PyState),
      chainedB g (subPiTags t ln fuel cs g).calls = true ∧
        (subPiTags t ln fuel cs g).g = endG g (subPiTags t ln fuel cs g).calls := by
  intro fuel
  induction fuel with
  | zero =>
    intro cs g
    cases cs <;> simp [subPiTags, chainedB, endG]
  | succ fuel ih =>
    intro cs g
    cases cs with
    | nil => simp [subPiTags, chainedB, endG]
    | cons c rest =>
      simp only [subPiTags]
      cases hm : matchPiTagAt t (c :: rest) with
      | none =>
        simp only
        exact ih rest g
      | some p =>
        obtain ⟨body, after⟩ := p
        simp only
        cases hre : (exec_and_dump body ln g).err with
        | some e =>
          simp only
          constructor
          · simp [chainedB, callGOut]
          · simp [endG, callGOut, chainedB]
        | none =>
          simp only
          obtain ⟨ihc, ihg⟩ := ih after (exec_and_dump body ln g).g
          constructor
          · simp only [chainedB, callGOut]
            simp [ihc]
          · simp only [endG, callGOut]
            exact ihg

theorem procRest_chain {t : List Char} (st : ScanSt) (ln : Nat) (line : List Char) :
    chainedB st.g (procRest t st ln line).calls = true ∧
      (procRest t st ln line).st.g = endG st.g (procRest t st ln line).calls := by
  by_cases hg : containsOpen line = true
  · obtain ⟨hc, he⟩ := @subPiTags_chain t ln line.length line st.g
    cases hsb : (subPiTags t ln line.length line st.g).err with
    | some e =>
      rw [procRest_eq_suberr hg hsb]
      exact ⟨hc, he⟩
    | none =>
      cases hs : searchPiBeg t (subPiTags t ln line.length line st.g).line with
      | some p =>
        obtain ⟨pre, wsrest⟩ := p
        rw [procRest_eq_open hg hsb hs]
        exact ⟨hc, he⟩
      | none =>
        rw [procRest_eq_plain hg hsb hs]
        exact ⟨hc, he⟩
  · rw [procRest_eq_noopen (by simpa using hg)]
    simp [chainedB, endG]

theorem procLine_chain {t : List Char} (st : ScanSt) (ln : Nat) (line : List Char) :
    chainedB st.g (procLine t st ln line).calls = true ∧
      (procLine t st ln line).st.g = endG st.g (procLine t st ln line).calls := by
  by_cases h0 : st.inTag = true
  · cases hfc : findClose line with
    | none =>
      rw [procLine_eq_cont h0 hfc]
      simp [chainedB, endG]
    | some p =>
      obtain ⟨pre, after⟩ := p
      cases hex : (exec_and_dump (st.buf ++ pre) st.begLn st.g).err with
      | some e =>
        rw [procLine_eq_closeerr h0 hfc hex]
        simp [chainedB, endG, callGOut]
      | none =>
        rw [procLine_eq_close h0 hfc rfl hex]
        obtain ⟨hc, he⟩ := procRest_chain (t := t)
          (afterExecSt st (exec_and_dump (st.buf ++ pre) st.begLn st.g).g) ln after
        have hg2 : (afterExecSt st (exec_and_dump (st.buf ++ pre) st.begLn st.g).g).g
            = (exec_and_dump (st.buf ++ pre) st.begLn st.g).g := rfl
        rw [hg2] at hc he
        constructor
        · simp only [chainedB, callGOut]
          simp [hc]
        · simp only [endG, callGOut]
          exact he
  · have h0' : st.inTag = false := by simpa using h0
    rw [procLine_not_inTag h0']
    exact procRest_chain st ln line

theorem procLines_chain {t : List Char} :
    ∀ (lines : List (List Char)) (st : ScanSt) (ln : Nat),
      chainedB st.g (procLines t st ln lines).calls = true ∧
        (procLines t st ln lines).st.g = endG st.g (procLines t st ln lines).calls := by
  intro lines
  induction lines with
  | nil =>
    intro st ln
    simp [procLines, chainedB, endG]
  | cons l ls ih =>
    intro st ln
    obtain ⟨hc1, he1⟩ := procLine_chain (t := t) st ln l
    cases hr : (procLine t st ln l).err with
    | some e =>
      rw [procLines_cons_err hr]
      exact ⟨hc1, he1⟩
    | none =>
      rw [procLines_cons_ok hr]
      dsimp only
      obtain ⟨hc2, he2⟩ := ih (procLine t st ln l).st (ln + 1)
      refine ⟨?_, ?_⟩
      · rw [chainedB_append, hc1, ← he1, hc2]
        simp
      · rw [endG_append, ← he1]
        exact he2

theorem input_chain (t : List Char) (g : PyState) (doc : List Char) :
    chainedB g (Processor.input t g doc).calls = true ∧
      (Processor.input t g doc).g = endG g (Processor.input t g doc).calls := by
  obtain ⟨hc, he⟩ := procLines_chain (t := t) (splitLines doc) ⟨g, false, 0, []⟩ 1
  simp only [Processor.input]
  cases hre : (procLines t ⟨g, false, 0, []⟩ 1 (splitLines doc)).err with
  | some e => exact ⟨hc, he⟩
  | none =>
    by_cases hT : (procLines t ⟨g, false, 0, []⟩ 1 (splitLines doc)).st.inTag
    · simp only [hT, if_true]
      exact ⟨hc, he⟩
    · simp only [hT, if_false]
      exact ⟨hc, he⟩

theorem inputDocs_chain (t : List Char) :
    ∀ (docs : List (List Char)) (g : PyState),
      chainedB g (inputDocs t g docs).calls = true ∧
        (inputDocs t g docs).g = endG g (inputDocs t g docs).calls := by
  intro docs
  induction docs with
  | nil => intro g; simp [inputDocs, chainedB, endG]
  | cons d ds ih =>
    intro g
    obtain ⟨hc1, he1⟩ := input_chain t g d
    simp only [inputDocs]
    cases hre : (Processor.input t g d).err with
    | some e => exact ⟨hc1, he1⟩
    | none =>
      dsimp only
      obtain ⟨hc2, he2⟩ := ih (Processor.input t g d).g
      refine ⟨?_, ?_⟩
      · rw [chainedB_append, hc1, ← he1, hc2]
        simp
      · rw [endG_append, ← he1]
        exact he2

theorem runPreExec_chain :
    ∀ (cmds : List (List Char)) (g : PyState) (stdout : List Char),
      chainedB g (runPreExec cmds g stdout).calls = true ∧
        (runPreExec cmds g stdout).g = endG g (runPreExec cmds g stdout).calls := by
  intro cmds
  induction cmds with
  | nil => intro g stdout; simp [runPreExec, chainedB, endG]
  | cons c cs ih =>
    intro g stdout
    obtain ⟨he, hg, -⟩ := exec_py_out c 1 g stdout
    have hgo : (exec_py c 1 g stdout).g = callGOut ⟨c, 1, g⟩ := by
      rw [hg]; rfl
    simp only [runPreExec]
    cases hre : (exec_py c 1 g stdout).err with
    | some e =>
      dsimp only
      refine ⟨?_, ?_⟩
      · simp [chainedB]
      · simp only [endG, chainedB, ← hgo]
    | none =>
      dsimp only
      obtain ⟨hc2, he2⟩ := ih (exec_py c 1 g stdout).g (exec_py c 1 g stdout).stdout
      refine ⟨?_, ?_⟩
      · simp only [chainedB, ← hgo]
        simp [hc2]
      · simp only [endG, ← hgo]
        exact he2

theorem runMain_chain (t : List Char) (cmds docs : List (List Char)) :
    chainedB [] (runMain t cmds docs).calls = true ∧
      (runMain t cmds docs).g = endG [] (runMain t cmds docs).calls := by
  obtain ⟨hc1, he1⟩ := runPreExec_chain cmds [] []
  simp only [runMain]
  cases hre : (runPreExec cmds [] []).err with
  | some e => exact ⟨hc1, he1⟩
  | none =>
    dsimp only
    obtain ⟨hc2, he2⟩ := inputDocs_chain t docs (runPreExec cmds [] []).g
    refine ⟨?_, ?_⟩
    · rw [chainedB_append, hc1, ← he1, hc2]
      simp
    · rw [endG_append, ← he1]
      exact he2

/-! Bindings survive every snippet that does not reassign them. -/

theorem runStmts_preserve {n : List Char} {v : Nat} :
    ∀ (ss : List (Nat × Stmt)) (g : PyState) (out : List Char),
      lookupV n g = some v → (∀ p ∈ ss, assignsStmt n p.2 = false) →
      lookupV n (runStmts ss g out).g = some v := by
  intro ss
  induction ss with
  | nil => intro g out hv _; simpa [runStmts] using hv
  | cons p rest ih =>
    intro g out hv hall
    obtain ⟨k, s⟩ := p
    have hs := hall (k, s) (by simp)
    have hrest : ∀ p ∈ rest, assignsStmt n p.2 = false := fun p hp => hall p (by simp [hp])
    have hkeep : lookupV n (runStmt s g out).g = some v := by
      cases s with
      | passS => simpa [runStmt] using hv
      | assign m w =>
        simp only [assignsStmt, decide_eq_false_iff_not] at hs
        simp only [runStmt, lookupV]
        rw [if_neg (fun h => hs h.symm)]
        exact hv
      | printLit l => simpa [runStmt] using hv
      | printVar m =>
        cases hl : lookupV m g with
        | some w => simpa [runStmt, hl] using hv
        | none => simpa [runStmt, hl] using hv
      | printDivZero => simpa [runStmt] using hv
    cases hre : (runStmt s g out).err with
    | some e =>
      rw [runStmts_cons_err hre]
      exact hkeep
    | none =>
      rw [runStmts_cons_ok hre]
      exact ih (runStmt s g out).g (runStmt s g out).out hkeep hrest

theorem call_preserve {n : List Char} {v : Nat} {c : Call}
    (hv : lookupV n c.gIn = some v) (hna : noAssign n c.src = true) :
    lookupV n (callGOut c) = some v := by
  rw [callGOut, exec_and_dump]
  rw [noAssign] at hna
  cases hp : miniParse c.src with
  | error m =>
    rw [exec_py_parse_err hp]
    exact hv
  | ok ss =>
    rw [hp] at hna
    have hall : ∀ p ∈ shifted c.line ss, assignsStmt n p.2 = false := by
      intro p hp2
      rw [shifted] at hp2
      by_cases h0 : c.line - 1 = 0
      · rw [if_pos h0] at hp2
        have := List.all_eq_true.mp hna p hp2
        simpa using this
      · rw [if_neg h0] at hp2
        rw [shiftLines] at hp2
        obtain ⟨q, hq, hpq⟩ := List.mem_map.mp hp2
        have := List.all_eq_true.mp hna q hq
        rw [← hpq]
        simpa using this
    cases hre : (runStmts (shifted c.line ss) c.gIn []).err with
    | some e =>
      rw [exec_py_run_err hp hre]
      exact runStmts_preserve (shifted c.line ss) c.gIn [] hv hall
    | none =>
      rw [exec_py_run_ok hp hre]
      exact runStmts_preserve (shifted c.line ss) c.gIn [] hv hall

theorem chain_persist {n : List Char} {v : Nat} :
    ∀ (calls : List Call) (g0 : PyState), chainedB g0 calls = true →
      lookupV n g0 = some v → (∀ c ∈ calls, noAssign n c.src = true) →
      (∀ c ∈ calls, lookupV n c.gIn = some v) ∧ lookupV n (endG g0 calls) = some v := by
  intro calls
  induction calls with
  | nil => intro g0 _ hv _; exact ⟨by simp, by simpa [endG] using hv⟩
  | cons c rest ih =>
    intro g0 hch hv hall
    simp only [chainedB, Bool.and_eq_true, decide_eq_true_eq] at hch
    obtain ⟨hgin, hch2⟩ := hch
    have hc0 : lookupV n c.gIn = some v := by rw [hgin]; exact hv
    have hout : lookupV n (callGOut c) = some v :=
      call_preserve hc0 (hall c (by simp))
    have hrest : ∀ c' ∈ rest, noAssign n c'.src = true := fun c' h => hall c' (by simp [h])
    obtain ⟨h1, h2⟩ := ih (callGOut c) hch2 hout hrest
    refine ⟨?_, by simpa [endG] using h2⟩
    intro c' hc'
    rcases List.mem_cons.mp hc' with h | h
    · subst h; exact hc0
    · exact h1 c' h

theorem chain_drop :
    ∀ (calls : List Call) (g0 : PyState), chainedB g0 calls = true →
      ∀ (i : Nat) (hi : i < calls.length),
        chainedB (callGOut (calls.get ⟨i, hi⟩)) (calls.drop (i + 1)) = true ∧
          endG g0 calls = endG (callGOut (calls.get ⟨i, hi⟩)) (calls.drop (i + 1)) := by
  intro calls
  induction calls with
  | nil => intro g0 _ i hi; simp at hi
  | cons c rest ih =>
    intro g0 hch i hi
    simp only [chainedB, Bool.and_eq_true, decide_eq_true_eq] at hch
    obtain ⟨-, hch2⟩ := hch
    cases i with
    | zero =>
      refine ⟨by simpa using hch2, ?_⟩
      simp [endG]
    | succ i' =>
      have hi' : i' < rest.length := by simpa using hi
      obtain ⟨h1, h2⟩ := ih (callGOut c) hch2 i' hi'
      refine ⟨by simpa using h1, ?_⟩
      simp only [endG]
      simpa using h2

/-! Branch equations for one document. -/

theorem input_eq_err {t : List Char} {g : PyState} {doc : List Char} {e : PyError}
    (hre : (procLines t ⟨g, false, 0, []⟩ 1 (splitLines doc)).err = some e) :
    Processor.input t g doc =
      ⟨some (.pyErr e), (procLines t ⟨g, false, 0, []⟩ 1 (splitLines doc)).st.g,
        (procLines t ⟨g, false, 0, []⟩ 1 (splitLines doc)).out,
        (procLines t ⟨g, false, 0, []⟩ 1 (splitLines doc)).calls⟩ := by
  simp only [Processor.input, hre]

theorem input_eq_xml {t : List Char} {g : PyState} {doc : List Char}
    (hre : (procLines t ⟨g, false, 0, []⟩ 1 (splitLines doc)).err = none)
    (hT : (procLines t ⟨g, false, 0, []⟩ 1 (splitLines doc)).st.inTag = true) :
    Processor.input t g doc =
      ⟨some (.xmlErr (procLines t ⟨g, false, 0, []⟩ 1 (splitLines doc)).st.begLn),
        (procLines t ⟨g, false, 0, []⟩ 1 (splitLines doc)).st.g,
        (procLines t ⟨g, false, 0, []⟩ 1 (splitLines doc)).out,
        (procLines t ⟨g, false, 0, []⟩ 1 (splitLines doc)).calls⟩ := by
  simp only [Processor.input, hre, hT, if_true]

theorem input_eq_ok {t : List Char} {g : PyState} {doc : List Char}
    (hre : (procLines t ⟨g, false, 0, []⟩ 1 (splitLines doc)).err = none)
    (hT : (procLines t ⟨g, false, 0, []⟩ 1 (splitLines doc)).st.inTag = false) :
    Processor.input t g doc =
      ⟨none, (procLines t ⟨g, false, 0, []⟩ 1 (splitLines doc)).st.g,
        (procLines t ⟨g, false, 0, []⟩ 1 (splitLines doc)).out,
        (procLines t ⟨g, false, 0, []⟩ 1 (splitLines doc)).calls⟩ := by
  simp only [Processor.input, hre, hT]
  simp

/-- Claim C1: an input document in which no line contains an occurrence
of the tag-opening pattern for the processor's target is passed through
unchanged: no diagnostic, output byte-for-byte equal to the input, the
namespace untouched, and no snippet executed. -/
theorem claim_passthrough (g : PyState) (doc : List Char)
    (h : ∀ l ∈ splitLines doc, searchPiBeg pyT l = none) :
    (Processor.input pyT g doc).err = none ∧
      (Processor.input pyT g doc).out = doc ∧
      (Processor.input pyT g doc).g = g ∧
      (Processor.input pyT g doc).calls = [] := by
  obtain ⟨he, ho, hc, hg2, hT⟩ := procLines_id (splitLines doc) ⟨g, false, 0, []⟩ 1 rfl h
  rw [input_eq_ok he hT]
  refine ⟨rfl, ?_, ?_, ?_⟩
  · dsimp only
    rw [ho, splitLines_join]
  · dsimp only
    rw [hg2]
  · dsimp only
    rw [hc]

/-- Witness for C1 on a concrete tag-free document (which even contains
an XML declaration with `<?` and a stray `?>`). -/
theorem claim_passthrough_witness :
    (Processor.input pyT [(['z'], 1)] "<a>hi</a>\n<?xml version ?>\n".data).err = none ∧
      (Processor.input pyT [(['z'], 1)] "<a>hi</a>\n<?xml version ?>\n".data).out =
        "<a>hi</a>\n<?xml version ?>\n".data ∧
      (Processor.input pyT [(['z'], 1)] "<a>hi</a>\n<?xml version ?>\n".data).g = [(['z'], 1)] ∧
      (Processor.input pyT [(['z'], 1)] "<a>hi</a>\n<?xml version ?>\n".data).calls = [] :=
  claim_passthrough [(['z'], 1)] "<a>hi</a>\n<?xml version ?>\n".data (by decide)

/-- Claim C2 counterexample: the concrete scenario's document is
processed without error, but the output is not `AxByC` - `print('x')`
appends a newline after each substitution. -/
theorem claim_scenario_axbyc_counterexample :
    (Processor.input pyT [] "A<?py print('x')?>B<?py print('y')?>C".data).err = none ∧
      (Processor.input pyT [] "A<?py print('x')?>B<?py print('y')?>C".data).out ≠
        "AxByC".data := by
  constructor
  · decide
  · decide

/-- Claim C2 amended: the single-line input with the two `print` tags is
processed without diagnostic, and the output is `Ax\nBy\nC`: each tag is
replaced by its printed output, which ends with the newline `print`
appends. -/
theorem claim_scenario_axbyc_amended :
    (Processor.input pyT [] "A<?py print('x')?>B<?py print('y')?>C".data).err = none ∧
      (Processor.input pyT [] "A<?py print('x')?>B<?py print('y')?>C".data).out =
        "Ax\nBy\nC".data := by
  constructor
  · decide
  · decide

/-- Claim C3: a snippet whose parse fails on its Nth internal line,
executed with starting line L, reports the error at line `L + N - 1`;
and concretely through the scanner, a single-line tag on document line 3
with a bad body reports line 3, and a multi-line tag opened on document
line 2 whose third internal line is bad reports line 4 (the true
document line of the offending text). -/
theorem claim_line_diagnostics :
    (∀ (src : List Char) (L N : Nat) (g : PyState) (stdout : List Char),
      1 ≤ L → miniParse src = .error N →
      (exec_py src L g stdout).err = some (.syntaxErr (L + N - 1))) ∧
    (Processor.input pyT [] "l1\nl2\n<?py )(?>X".data).err =
      some (.pyErr (.syntaxErr 3)) ∧
    (Processor.input pyT [] "x\n<?py\npass\n)(\n?>Y".data).err =
      some (.pyErr (.syntaxErr 4)) := by
  refine ⟨?_, by decide, by decide⟩
  intro src L N g stdout hL hp
  rw [exec_py_parse_err hp]
  have harith : (if L - 1 = 0 then N else N + (L - 1)) = L + N - 1 := by
    split <;> omega
  rw [harith]

/-- Witness for C3's general part: a two-character unparsable snippet
run with starting line 3 reports line 3 (= 3 + 1 - 1). -/
theorem claim_line_diagnostics_witness :
    (exec_py ")(".data 3 [] []).err = some (.syntaxErr 3) :=
  claim_line_diagnostics.1 ")(".data 3 1 [] [] (by decide) (by rfl)

/-- Claim C4: the malformed-tag diagnostic is raised exactly when the
scan of every line succeeds but ends still inside a multi-line tag, and
the line it names is then the recorded opening line; moreover that named
line n = 1 + k is a line containing the opening marker `<?` after which
no later line contains the closing marker `?>` - so an input whose every
opened tag is closed can never raise it. -/
theorem claim_unterminated_tag (g : PyState) (doc : List Char) (n : Nat) :
    ((Processor.input pyT g doc).err = some (.xmlErr n) ↔
      ((procLines pyT ⟨g, false, 0, []⟩ 1 (splitLines doc)).err = none ∧
        (procLines pyT ⟨g, false, 0, []⟩ 1 (splitLines doc)).st.inTag = true ∧
        (procLines pyT ⟨g, false, 0, []⟩ 1 (splitLines doc)).st.begLn = n)) ∧
    ((Processor.input pyT g doc).err = some (.xmlErr n) →
      ∃ k, ∃ (hk : k < (splitLines doc).length), n = 1 + k ∧
        containsOpen ((splitLines doc).get ⟨k, hk⟩) = true ∧
        ∀ j, (hj : j < (splitLines doc).length) → k < j →
          containsClose ((splitLines doc).get ⟨j, hj⟩) = false) := by
  have hiff : (Processor.input pyT g doc).err = some (.xmlErr n) ↔
      ((procLines pyT ⟨g, false, 0, []⟩ 1 (splitLines doc)).err = none ∧
        (procLines pyT ⟨g, false, 0, []⟩ 1 (splitLines doc)).st.inTag = true ∧
        (procLines pyT ⟨g, false, 0, []⟩ 1 (splitLines doc)).st.begLn = n) := by
    constructor
    · intro h
      cases hre : (procLines pyT ⟨g, false, 0, []⟩ 1 (splitLines doc)).err with
      | some e =>
        rw [input_eq_err hre] at h
        simp at h
      | none =>
        by_cases hT : (procLines pyT ⟨g, false, 0, []⟩ 1 (splitLines doc)).st.inTag = true
        · rw [input_eq_xml hre hT] at h
          simp only [Option.some.injEq] at h
          refine ⟨rfl, hT, ?_⟩
          cases h
          rfl
        · rw [input_eq_ok hre (by simpa using hT)] at h
          simp at h
    · rintro ⟨hre, hT, hbeg⟩
      rw [input_eq_xml hre hT]
      simp [hbeg]
  refine ⟨hiff, ?_⟩
  intro h
  obtain ⟨hre, hT, hbeg⟩ := hiff.mp h
  rcases procLines_open (splitLines doc) ⟨g, false, 0, []⟩ 1 hre hT with
    ⟨hcontra, -, -⟩ | ⟨k, hk, hbeg2, hopen, hclose⟩
  · simp at hcontra
  · refine ⟨k, hk, ?_, hopen, hclose⟩
    rw [← hbeg, hbeg2]

/-- Witness for C4: a document whose second line opens a tag that is
never closed raises the diagnostic naming line 2, and line 2 indeed
contains `<?` with no `?>` afterwards. -/
theorem claim_unterminated_tag_witness :
    ∃ k, ∃ (hk : k < (splitLines "ab\n<?py\nxyz".data).length), 2 = 1 + k ∧
      containsOpen ((splitLines "ab\n<?py\nxyz".data).get ⟨k, hk⟩) = true ∧
      ∀ j, (hj : j < (splitLines "ab\n<?py\nxyz".data).length) → k < j →
        containsClose ((splitLines "ab\n<?py\nxyz".data).get ⟨j, hj⟩) = false :=
  (claim_unterminated_tag [] "ab\n<?py\nxyz".data 2).2 (by decide)

/-- Claim C5: in one run of `main` (pre-execution snippets, then the
documents, through one processor), the snippet evaluations form a chain
through the single persistent namespace, starting from the empty one:
each evaluation sees exactly the namespace the previous one left, the
final namespace is the last evaluation's result, and a name bound by an
earlier evaluation stays visible with the same value to every later
evaluation (and in the final namespace) as long as no later snippet
reassigns it.  Concretely, an assignment made by a tag of one document
is visible to the tags of the next document processed by the same run,
and an assignment made by a pre-execution snippet is visible to the
documents' tags. -/
theorem claim_state_threading (t : List Char) (cmds docs : List (List Char)) :
    (chainedB [] (runMain t cmds docs).calls = true ∧
      (runMain t cmds docs).g = endG [] (runMain t cmds docs).calls) ∧
    (∀ (i : Nat) (hi : i < (runMain t cmds docs).calls.length) (n : List Char) (v : Nat),
      lookupV n (callGOut ((runMain t cmds docs).calls.get ⟨i, hi⟩)) = some v →
      (∀ c ∈ (runMain t cmds docs).calls.drop (i + 1), noAssign n c.src = true) →
      (∀ c ∈ (runMain t cmds docs).calls.drop (i + 1), lookupV n c.gIn = some v) ∧
        lookupV n (runMain t cmds docs).g = some v) ∧
    ((inputDocs pyT [] ["<?py x = 5 ?>ok".data, "A<?py print(x)?>B".data]).err = none ∧
      (inputDocs pyT [] ["<?py x = 5 ?>ok".data, "A<?py print(x)?>B".data]).out =
        "okA5\nB".data ∧
      (inputDocs pyT [] ["<?py x = 5 ?>ok".data, "A<?py print(x)?>B".data]).g =
        [("x".data, 5)]) ∧
    (runMain pyT ["x = 5".data] ["A<?py print(x)?>B".data]).outSink = "A5\nB".data := by
  refine ⟨runMain_chain t cmds docs, ?_, by refine ⟨?_, ?_, ?_⟩ <;> decide, by decide⟩
  intro i hi n v hv hna
  obtain ⟨hch, hend⟩ := runMain_chain t cmds docs
  obtain ⟨hd, he⟩ := chain_drop (runMain t cmds docs).calls [] hch i hi
  obtain ⟨h1, h2⟩ := chain_persist ((runMain t cmds docs).calls.drop (i + 1))
    (callGOut ((runMain t cmds docs).calls.get ⟨i, hi⟩)) hd hv hna
  refine ⟨h1, ?_⟩
  rw [hend, he]
  exact h2

/-- Witness for C5: the pre-execution snippet `x = 5` followed by one
document with a `print(x)` tag; the binding made by call 0 is seen by
the later call and survives into the final namespace. -/
theorem claim_state_threading_witness :
    (∀ c ∈ (runMain pyT ["x = 5".data] ["<?py print(x)?>".data]).calls.drop 1,
        lookupV "x".data c.gIn = some 5) ∧
      lookupV "x".data (runMain pyT ["x = 5".data] ["<?py print(x)?>".data]).g = some 5 :=
  (claim_state_threading pyT ["x = 5".data] ["<?py print(x)?>".data]).2.1 0 (by decide)
    "x".data 5 (by decide) (by decide)

/-- Claim C6 counterexample: a pre-execution snippet `print('q')` run by
`main` writes `q\n` to the real standard output - its printed text is
not captured and discarded, contradicting the claim that it reaches
neither the output sink nor the real standard output. -/
theorem claim_preexec_discard_counterexample :
    (runMain pyT ["print('q')".data] []).realOut = "q\n".data ∧
      "q\n".data ≠ ([] : List Char) := by
  constructor
  · decide
  · decide

/-- Claim C6 amended: pre-execution snippets run with no output
redirection at all: everything they print goes to the real standard
output (appended to whatever was already there), never to the
processor's output sink, and is not discarded; document processing adds
nothing to the real standard output; the snippets' namespace mutations
persist for the rest of the run. -/
theorem claim_preexec_discard_amended :
    (∀ (t : List Char) (cmds docs : List (List Char)),
      (runMain t cmds docs).realOut = (runPreExec cmds [] []).stdoutAcc ∧
      (runMain t cmds docs).outSink =
        (match (runPreExec cmds [] []).err with
          | some _ => []
          | none => (inputDocs t (runPreExec cmds [] []).g docs).out)) ∧
    (∀ (src : List Char) (ln : Nat) (g : PyState) (stdout : List Char),
      (exec_py src ln g stdout).stdout = stdout ++ (exec_py src ln g []).stdout) ∧
    (runMain pyT ["print('q')".data] ["<a/>".data]).realOut = "q\n".data ∧
    (runMain pyT ["print('q')".data] ["<a/>".data]).outSink = "<a/>".data ∧
    (runMain pyT ["k = 3".data] []).g = [("k".data, 3)] := by
  refine ⟨?_, ?_, by decide, by decide, by decide⟩
  · intro t cmds docs
    simp only [runMain]
    cases hre : (runPreExec cmds [] []).err with
    | some e => exact ⟨rfl, rfl⟩
    | none => exact ⟨rfl, rfl⟩
  · intro src ln g stdout
    exact (exec_py_out src ln g stdout).2.2

/-- Claim C7: the concrete division-by-zero document raises the script
diagnostic in its run-time phase wrapping the division-by-zero failure,
and nothing at all is written to the output sink for that document, not
even the text preceding the failing tag. -/
theorem claim_divzero_scenario :
    (Processor.input pyT [] "<a><?py print(1/0)?></a>".data).err =
      some (.pyErr (.runtimeErr .zeroDiv)) ∧
      (Processor.input pyT [] "<a><?py print(1/0)?></a>".data).out = [] := by
  constructor
  · decide
  · decide

/-- Claim C8 counterexample: in `A<?py ?>x?>B` the first `?>` after the
opening marker immediately follows the mandatory whitespace; the tag
body executed is `?>x` - it begins with that first closing marker and
extends past it, so text after the first occurrence is part of the
body, and the snippet consequently fails to compile instead of the
remainder being passed through. -/
theorem claim_first_close_counterexample :
    (Processor.input pyT [] "A<?py ?>x?>B".data).calls.map Call.src = ["?>x".data] ∧
      "?>x".data = '?' :: '>' :: ['x'] ∧
      (Processor.input pyT [] "A<?py ?>x?>B".data).err =
        some (.pyErr (.syntaxErr 1)) := by
  refine ⟨?_, ?_, ?_⟩ <;> decide

/-- Claim C8 amended: a single-line tag's body is the shortest nonempty
newline-free text, beginning immediately after the mandatory whitespace,
that is followed by `?>` - so a `?>` immediately after the whitespace
does not close the tag: when the opening pattern matches and the
closing marker stands right after the mandatory whitespace, the
captured body begins with that first `?>` and runs on to the next one
(second conjunct); the body of a multi-line tag ends at the first `?>`
on a subsequent line, and a line without `?>` is swallowed whole;
string literals are not respected, as the concrete `print('?>')` tag,
cut at the `?>` inside its string literal, shows. -/
theorem claim_first_close_amended :
    (∀ (t cs b a : List Char), matchPiTagAt t cs = some (b, a) →
      b ≠ [] ∧ (∀ x ∈ b, x ≠ '\n') ∧
      (∃ ws c, cs = '<' :: '?' :: (ws ++ t ++ c :: (b ++ '?' :: '>' :: a))) ∧
      (∀ b₂ a₂, b ++ '?' :: '>' :: a = b₂ ++ '?' :: '>' :: a₂ → b₂ ≠ [] →
        b.length ≤ b₂.length)) ∧
    (∀ (t cs b a : List Char) (n : Nat), matchPiBegAt t cs = some n →
      startsClose (cs.drop n) = true → matchPiTagAt t cs = some (b, a) →
      ∃ b', b = '?' :: '>' :: b') ∧
    (∀ (line pre aft : List Char), findClose line = some (pre, aft) →
      line = pre ++ '?' :: '>' :: aft ∧
      ∀ p₂ a₂, line = p₂ ++ '?' :: '>' :: a₂ → pre.length ≤ p₂.length) ∧
    (∀ line : List Char, findClose line = none ↔ containsClose line = false) ∧
    (Processor.input pyT [] "A<?py print('?>')?>B".data).calls.map Call.src =
      ["print('".data] := by
  refine ⟨?_, fun t cs b a n hm hsc h => matchPiTag_close_head hm hsc h, ?_,
    findClose_none_iff, by decide⟩
  · intro t cs b a h
    have h0 := h
    rw [matchPiTagAt] at h0
    cases hm : matchPiBegAt t cs with
    | none =>
      rw [hm] at h0
      exact absurd h0 (by simp)
    | some n =>
      rw [hm] at h0
      obtain ⟨he, -, -⟩ := findLazyBody_spec h0
      obtain ⟨ws, c, hcs, -, -, hbne, hbnl⟩ := matchPiTagAt_spec h
      refine ⟨hbne, hbnl, ⟨ws, c, hcs⟩, ?_⟩
      intro b₂ a₂ heq hne2
      exact findLazyBody_min h0 b₂ a₂ (by rw [he, heq]) hne2
  · intro line pre aft h
    exact ⟨findClose_spec h, findClose_min h⟩

/-- Witness for C8 amended: on the tag `<?py ab?>cd` the body is `ab`
and the remainder `cd`, with the decomposition and the minimality of
the body; and on `<?py ?>x?>B`, where `?>` stands right after the
mandatory whitespace, the captured body `?>x` begins with that first
closing marker. -/
theorem claim_first_close_amended_witness :
    ("ab".data ≠ [] ∧ (∀ x ∈ "ab".data, x ≠ '\n') ∧
      (∃ ws c, "<?py ab?>cd".data =
        '<' :: '?' :: (ws ++ pyT ++ c :: ("ab".data ++ '?' :: '>' :: "cd".data))) ∧
      (∀ b₂ a₂, "ab".data ++ '?' :: '>' :: "cd".data = b₂ ++ '?' :: '>' :: a₂ →
        b₂ ≠ [] → ("ab".data).length ≤ b₂.length)) ∧
    (∃ b', "?>x".data = '?' :: '>' :: b') :=
  ⟨claim_first_close_amended.1 pyT "<?py ab?>cd".data "ab".data "cd".data (by rfl),
    claim_first_close_amended.2.1 pyT "<?py ?>x?>B".data "?>x".data "B".data 5 (by rfl)
      (by decide) (by rfl)⟩

/-- Claim C9 counterexample: for the multi-line tag opened by `<?py` at
the end of the first line, the whitespace after the target (here the
newline) is the first character of the snippet source handed to the
execution routine - the mandatory whitespace is part of the compiled
source, contradicting the claim.  (The run still succeeds: the leading
newline is exactly what realigns the body's line numbers.) -/
theorem claim_mandatory_ws_counterexample :
    (Processor.input pyT [] "<?py\npass?>X".data).calls.map Call.src = ["\npass".data] ∧
      "\npass".data = '\n' :: "pass".data ∧ isSpc '\n' = true ∧
      (Processor.input pyT [] "<?py\npass?>X".data).err = none ∧
      (Processor.input pyT [] "<?py\npass?>X".data).out = "X".data := by
  refine ⟨?_, ?_, ?_, ?_, ?_⟩ <;> decide

/-- Claim C9 amended: a tag opening is recognized only when the target
name is followed by a whitespace character (a non-whitespace character
there defeats the match); for single-line tags the captured body starts
strictly after that whitespace; but for multi-line tags the code buffer
is seeded from the matched whitespace itself (`m.end(0) - 1`), so the
whitespace character is part of the compiled snippet source. -/
theorem claim_mandatory_ws_amended :
    (∀ (c0 : Char) (t' ws : List Char) (x : Char) (rest : List Char),
      isSpc c0 = false → ws.all isSpc = true → isSpc x = false →
      matchPiBegAt (c0 :: t') ('<' :: '?' :: (ws ++ (c0 :: t') ++ x :: rest)) = none) ∧
    (∀ (t cs b a : List Char), matchPiTagAt t cs = some (b, a) →
      ∃ ws c, cs = '<' :: '?' :: (ws ++ t ++ c :: (b ++ '?' :: '>' :: a)) ∧
        ws.all isSpc = true ∧ isSpc c = true) ∧
    (∀ (t cs pre rest : List Char), searchPiBeg t cs = some (pre, rest) →
      ∃ c tail, rest = c :: tail ∧ isSpc c = true) ∧
    (Processor.input pyT [] "<?py\npass?>X".data).calls.map Call.src =
      ["\npass".data] := by
  refine ⟨?_, ?_, ?_, by decide⟩
  · intro c0 t' ws x rest hc hws hx
    have hnone := @matchPiBegTail_no_ws c0 t' ws x rest hc hws hx
    rw [matchPiBegAt, if_pos ⟨rfl, rfl⟩, hnone]
    rfl
  · intro t cs b a h
    obtain ⟨ws, c, hcs, hws, hc, -, -⟩ := matchPiTagAt_spec h
    exact ⟨ws, c, hcs, hws, hc⟩
  · intro t cs pre rest h
    exact searchPiBeg_ws h

/-- Witness for C9 amended: target `py` followed by `x` (no whitespace)
is not recognized as a tag opening. -/
theorem claim_mandatory_ws_amended_witness :
    matchPiBegAt ('p' :: ['y'])
      ('<' :: '?' :: (([' '] ++ ('p' :: ['y']) ++ 'x' :: "rest".data))) = none :=
  claim_mandatory_ws_amended.1 'p' ['y'] [' '] 'x' "rest".data (by decide) (by decide)
    (by decide)

/-- Claim C10: whitespace between the opening marker `<?` and the target
name does not change what is recognized or executed: the opening pattern
consumes it (shifting the match end by its length), the single-line tag
matcher returns the identical body and remainder, and concretely
`A<? \t py print('x')?>B` is processed exactly like
`A<?py print('x')?>B`, executing the body `print('x')`. -/
theorem claim_ws_between_marker_and_target :
    (∀ (t ws rest : List Char), ws.all isSpc = true →
      matchPiBegTail t (ws ++ rest) = (matchPiBegTail t rest).map (· + ws.length)) ∧
    (∀ (t ws rest : List Char), ws.all isSpc = true →
      matchPiTagAt t ('<' :: '?' :: (ws ++ rest)) = matchPiTagAt t ('<' :: '?' :: rest)) ∧
    (Processor.input pyT [] "A<? \t py print('x')?>B".data =
      Processor.input pyT [] "A<?py print('x')?>B".data) ∧
    (Processor.input pyT [] "A<? py print('x')?>B".data).out = "Ax\nB".data ∧
    (Processor.input pyT [] "A<? py print('x')?>B".data).calls.map Call.src =
      ["print('x')".data] := by
  exact ⟨matchPiBegTail_ws, matchPiTagAt_ws, by decide, by decide, by decide⟩

/-- Witness for C10: one leading space before the target gives the same
match as none. -/
theorem claim_ws_between_marker_and_target_witness :
    matchPiTagAt pyT ('<' :: '?' :: ([' '] ++ "py x?>".data)) =
      matchPiTagAt pyT ('<' :: '?' :: "py x?>".data) :=
  claim_ws_between_marker_and_target.2.1 pyT [' '] "py x?>".data (by decide)
